import Mathlib

/-!
Verification development for the flow_verse dependency-synchronization engine
(`aiflows/flow_verse/loading.py`).

Strings are modelled as `List Char` (Python `str`), files as lists of
newline-free lines, and the filesystem / network / user-confirmation
collaborators as an explicit environment of oracles (`Env`), mirroring the
spec's external-interface section.  Every definition is translated from the
Python source; the few pieces of repository code that are not under `src/`
(`utils.build_hf_cache_path`, `utils.yes_no_question`) are modelled from the
spec and marked as such in their doc comments.
-/

set_option maxRecDepth 4000

/-- One line of `REVISION_FILE_HEADER` (40 `#` characters). -/
def headerSharpLine : List Char := List.replicate 40 '#'

/-- The middle line of `REVISION_FILE_HEADER`. -/
def headerAutoLine : List Char := (r"# auto-generated by aiflows, DO NOT EDIT #").data

/-- `REVISION_FILE_HEADER.split("\n")`: the three header lines of a manifest file. -/
def REVISION_FILE_HEADER_LINES : List (List Char) :=
  [headerSharpLine, headerAutoLine, headerSharpLine]

/-- `DEFAULT_REMOTE_REVISION = "main"`. -/
def DEFAULT_REMOTE_REVISION : List Char := (r"main").data

/-- `NO_COMMIT_HASH`, the sentinel fingerprint of local revisions. -/
def NO_COMMIT_HASH : List Char := (r"NO_COMMIT_HASH").data

/-- `DEFAULT_FLOW_MODULE_FOLDER = "flow_modules"`. -/
def DEFAULT_FLOW_MODULE_FOLDER : List Char := (r"flow_modules").data

/-- The literal prefix of the manifest's `sync_root: ` line. -/
def syncRootKey : List Char := (r"sync_root: ").data

/-- The literal prefix of the manifest's `cache_root: ` line. -/
def cacheRootKey : List Char := (r"cache_root: ").data

/-- The literal ` -> _/` separator of a manifest dependency line. -/
def arrowChars : List Char := (r" -> _/").data

/-- The `user_` prefix used to rewrite digit-prefixed usernames. -/
def userPrefixChars : List Char := (r"user_").data

/-- The `__pycache__` directory name skipped by the modification detector. -/
def pycacheChars : List Char := (r"__pycache__").data

/-- A character of Python's `\w` class (ASCII fragment: letters, digits, underscore). -/
def wordChar (c : Char) : Bool := c.isAlphanum || c = '_'

/-- `s` is nonempty and made only of `\w` characters (Python `^\w+$`). -/
def wordCharsL (s : List Char) : Bool := !s.isEmpty && s.all wordChar

/-- `s` contains no whitespace character at all. -/
def noWsL (s : List Char) : Bool := s.all (fun c => !c.isWhitespace)

/-- Python `str.strip()` on a newline-free line: drop whitespace at both ends. -/
def trimChars (s : List Char) : List Char :=
  ((s.dropWhile Char.isWhitespace).reverse.dropWhile Char.isWhitespace).reverse

/-- All ways of writing `s` as `pre ++ sep ++ post`, listed with `pre` of
increasing length.  This enumerates the candidate positions of a literal
separator inside a regex subject string. -/
def splitsOn (sep : List Char) : List Char → List (List Char × List Char)
  | [] => if sep.isEmpty then [([], [])] else []
  | c :: rest =>
    (if (c :: rest).take sep.length = sep then [(([] : List Char), (c :: rest).drop sep.length)]
     else []) ++
    (splitsOn sep rest).map (fun p => (c :: p.1, p.2))

/-- Split a list at every occurrence of the character `c`
(Python `str.split(c)`). -/
def splitChar (c : Char) : List Char → List (List Char)
  | [] => [[]]
  | x :: rest =>
    let r := splitChar c rest
    if x = c then [] :: r
    else
      match r with
      | [] => [[x]]
      | h :: t => (x :: h) :: t

/-- The path components of a POSIX path: split on `/` and drop empty parts
(as in `[x for x in p.split(sep) if x]` inside `posixpath.relpath`). -/
def pathComps (p : List Char) : List (List Char) :=
  (splitChar '/' p).filter (fun x => !x.isEmpty)

/-- Elementwise common prefix of two lists (`os.path.commonprefix` on the
component lists inside `posixpath.relpath`). -/
def commonLead : List (List Char) → List (List Char) → List (List Char)
  | a :: as_, b :: bs => if a = b then a :: commonLead as_ bs else []
  | _, _ => []

/-- Model of `os.path.relpath(path, start)` (POSIX) for inputs that are
already absolute and normalized, in which case `abspath` is the identity and
the function reduces to the component computation of `posixpath.relpath`. -/
def relpathAbs (path start : List Char) : List Char :=
  let path_list := pathComps path
  let start_list := pathComps start
  let i := (commonLead start_list path_list).length
  let rel_list := List.replicate (start_list.length - i) ('.' :: '.' :: []) ++ path_list.drop i
  if rel_list.isEmpty then ['.'] else List.intercalate ['/'] rel_list

/-- Model of `os.path.join(a, b)` (POSIX) for nonempty `a`. -/
def pathJoin (a b : List Char) : List Char :=
  if b.head? = some '/' then b
  else if a.getLast? = some '/' then a ++ b
  else a ++ '/' :: b

/-- Model of `os.path.basename(p)` (POSIX): the part after the last `/`. -/
def basename (p : List Char) : List Char :=
  (splitChar '/' p).getLastD []

/-- Whether `pat` occurs as a contiguous substring of `s`
(Python's `pat in s`). -/
def containsSub (pat s : List Char) : Bool :=
  (List.range (s.length + 1)).any (fun i => (s.drop i).take pat.length = pat)

/-- `FlowModuleSpec`: the resolved identity of one synchronized dependency
(the spec's Module Descriptor). -/
structure FlowModuleSpec where
  repo_id : List Char
  revision : List Char
  commit_hash : List Char
  cache_dir : List Char
  sync_dir : List Char
deriving DecidableEq, Repr

/-- `FlowModuleSpec.build_mod_id`: `f"{repo_id}:{revision}"`. -/
def FlowModuleSpec.build_mod_id (repo_id revision : List Char) : List Char :=
  repo_id ++ ':' :: revision

/-- The `mod_id` property of a `FlowModuleSpec`. -/
def FlowModuleSpec.mod_id (s : FlowModuleSpec) : List Char :=
  FlowModuleSpec.build_mod_id s.repo_id s.revision

/-- `FlowModuleSpecSummary`: the manifest.  `mods` is the insertion-ordered
dict `self._mods` keyed by `repo_id` (at most one entry per key). -/
structure FlowModuleSpecSummary where
  sync_root : List Char
  cache_root : List Char
  mods : List FlowModuleSpec
deriving DecidableEq, Repr

/-- One step of building a Python dict keyed by `repo_id`: replace the entry
with the same key if present (keeping its position), else append. -/
def dictInsert (m : List FlowModuleSpec) (s : FlowModuleSpec) : List FlowModuleSpec :=
  if m.any (fun x => x.repo_id = s.repo_id) then
    m.map (fun x => if x.repo_id = s.repo_id then s else x)
  else m ++ [s]

/-- `{mod.repo_id: mod for mod in mods}`: fold a list into a dict. -/
def dictOfList (l : List FlowModuleSpec) : List FlowModuleSpec :=
  l.foldl dictInsert []

/-- `FlowModuleSpecSummary.add_mod`: insert or replace by `repo_id`. -/
def FlowModuleSpecSummary.add_mod (m : FlowModuleSpecSummary) (s : FlowModuleSpec) :
    FlowModuleSpecSummary :=
  { m with mods := dictInsert m.mods s }

/-- `FlowModuleSpecSummary.get_mod`: look up a descriptor by `repo_id`. -/
def FlowModuleSpecSummary.get_mod (m : FlowModuleSpecSummary) (repo_id : List Char) :
    Option FlowModuleSpec :=
  m.mods.find? (fun x => x.repo_id = repo_id)

/-- The user-confirmation prompts issued by the reconciliation engine.
Modelled from the spec: `utils.yes_no_question` is not under `src/`; the spec
describes it as the external confirmation hook
`Confirm(prompt, onYesMessage, onNoMessage) -> bool`, so prompts are
abstracted by their site and arguments rather than by the rendered text. -/
inductive Prompt where
  | overwriteRemote (caller mod_id : List Char)
  | replaceRemote (caller old_mod_id new_mod_id : List Char)
  | overwriteLocal (caller mod_id : List Char)
  | replaceLocal (caller old_mod_id new_mod_id : List Char)
deriving DecidableEq, Repr

/-- The environment of external collaborators: filesystem predicates, the
registry abstraction (`huggingface_hub`), the confirmation hook and the
requirements-file check.  Each field is the value the corresponding external
call returns during the modelled run. -/
structure Env where
  /-- `os.path.exists`. -/
  fileExists : List Char → Bool
  /-- `os.path.isdir`. -/
  isDir : List Char → Bool
  /-- `os.path.abspath`. -/
  abspath : List Char → List Char
  /-- The cache snapshot path returned by
  `huggingface_hub.snapshot_download(repo_id, cache_dir, revision)`, as a
  function of `(repo_id, revision, cache_dir)`. -/
  cacheModDir : List Char → List Char → List Char → List Char
  /-- The commit hash returned by `retrive_commit_hash_from_remote`. -/
  remoteHash : List Char → List Char → List Char
  /-- The value `is_sync_dir_modified(sync_dir, cache_dir)` returns for the
  filesystem state of the run (the detector itself is modelled separately on
  explicit trees; the engine consumes its boolean result, as in spec 4.5). -/
  modified : List Char → List Char → Bool
  /-- The confirmation hook (`utils.yes_no_question`, spec 6). -/
  confirm : Prompt → Bool
  /-- Whether `pip_requirements.txt` exists under the given sync dir. -/
  hasRequirementsFile : List Char → Bool

/-- `is_local_revision`: a revision is local iff that exact string exists as
a filesystem path. -/
def is_local_revision (env : Env) (legal_revision : List Char) : Bool :=
  env.fileExists legal_revision

/-- Modelled from the spec: `utils.build_hf_cache_path` is not under `src/`;
spec 4.1 says only that for remote revisions the cache location is
"recomputed from (origin id, fingerprint, cache root)".  Any definite
function of those three arguments satisfies that sentence; this one is used
consistently by the parser and by the data-model invariant. -/
def build_hf_cache_path (repo_id commit_hash cache_root : List Char) : List Char :=
  cache_root ++ '/' :: repo_id ++ '/' :: commit_hash

/-- All matches of the dependency-line regex
`^(.+)/(.+) (.+) (.+) -> _/(.+)$` as group tuples
`(username, repo_name, revision, commit_hash, relative_sync_dir)`, listed in
lexicographically increasing order of the greedy groups' lengths. -/
def lineSplits (s : List Char) :
    List (List Char × List Char × List Char × List Char × List Char) :=
  (splitsOn ['/'] s).flatMap (fun p1 =>
    (splitsOn [' '] p1.2).flatMap (fun p2 =>
      (splitsOn [' '] p2.2).flatMap (fun p3 =>
        (splitsOn arrowChars p3.2).filterMap (fun p4 =>
          if !p1.1.isEmpty && !p2.1.isEmpty && !p3.1.isEmpty && !p4.1.isEmpty &&
             !p4.2.isEmpty then
            some (p1.1, p2.1, p3.1, p4.1, p4.2)
          else none))))

/-- `re.search` of the dependency-line pattern on a newline-free line.
Greedy `(.+)` groups backtrack from the longest candidate, so the match the
engine returns is the lexicographically maximal tuple of group lengths,
i.e. the last element of `lineSplits`. -/
def regexMatchFlowModLine (s : List Char) :
    Option (List Char × List Char × List Char × List Char × List Char) :=
  (lineSplits s).getLast?

/-- `re.search(r"^sync_root: (.+)$", line)` (and the `cache_root` variant):
the group is the nonempty remainder after the literal prefix. -/
def parseKeyLine (key line : List Char) : Option (List Char) :=
  if line.take key.length = key && key.length < line.length then
    some (line.drop key.length)
  else none

/-- Reconstruct one `FlowModuleSpec` from the groups of a matched dependency
line, as in the body of the `while mod_line` loop of `from_flow_mod_file`. -/
def specOfGroups (env : Env) (sync_root cache_root : List Char)
    (g : List Char × List Char × List Char × List Char × List Char) : FlowModuleSpec :=
  let repo_id := g.1 ++ '/' :: g.2.1
  let revision := g.2.2.1
  let commit_hash := g.2.2.2.1
  let sync_dir := pathJoin sync_root g.2.2.2.2
  let cache_dir :=
    if !is_local_revision env revision then build_hf_cache_path repo_id commit_hash cache_root
    else sync_dir
  { repo_id := repo_id, revision := revision, commit_hash := commit_hash,
    cache_dir := cache_dir, sync_dir := sync_dir }

/-- Errors surfaced by the engine (Python raises `ValueError` everywhere; the
constructors record the raising site's meaning). -/
inductive SyncErr where
  | invalidDependency
  | manifestCorrupt
  | assertionFailed
  | missingRequirements
  | invalidSyncRoot
  | invalidCacheEntry
  | fileError
deriving DecidableEq, Repr

/-- The `while mod_line` loop of `from_flow_mod_file`: read stripped lines
until the first empty one (or end of file), requiring each to match the
dependency-line grammar. -/
def parseModLines (env : Env) (sync_root cache_root : List Char) :
    List (List Char) → Except SyncErr (List FlowModuleSpec)
  | [] => .ok []
  | l :: rest =>
    let t := trimChars l
    if t.isEmpty then .ok []
    else
      match regexMatchFlowModLine t with
      | none => .error .manifestCorrupt
      | some g =>
        match parseModLines env sync_root cache_root rest with
        | .error e => .error e
        | .ok mods => .ok (specOfGroups env sync_root cache_root g :: mods)

/-- The header comparison performed by `from_flow_mod_file` (each of the
three `readline` results compared with its header line after stripping). -/
def headerMatches (lines : List (List Char)) : Bool :=
  decide (trimChars headerSharpLine = trimChars (lines.getD 0 [])) &&
  decide (trimChars headerAutoLine = trimChars (lines.getD 1 [])) &&
  decide (trimChars headerSharpLine = trimChars (lines.getD 2 []))

/-- The body of `FlowModuleSpecSummary.from_flow_mod_file` once the file is
known to exist, on the file's list of newline-free lines (`readline` past the
end of the file yields the empty string, modelled by `getD _ []`). -/
def from_flow_mod_lines (env : Env) (lines : List (List Char)) :
    Except SyncErr FlowModuleSpecSummary :=
  if !headerMatches lines then
    .error .manifestCorrupt
  else
    match parseKeyLine syncRootKey (trimChars (lines.getD 3 [])) with
    | none => .error .manifestCorrupt
    | some sync_root =>
      match parseKeyLine cacheRootKey (trimChars (lines.getD 4 [])) with
      | none => .error .manifestCorrupt
      | some cache_root =>
        match parseModLines env sync_root cache_root (lines.drop 5) with
        | .error e => .error e
        | .ok mods =>
          .ok { sync_root := sync_root, cache_root := cache_root, mods := dictOfList mods }

/-- Result of `from_flow_mod_file`: `absent` models the `None` return when
the file does not exist, `corrupt` the raised `ValueError`. -/
inductive ParseResult where
  | absent
  | corrupt
  | ok (s : FlowModuleSpecSummary)
deriving DecidableEq, Repr

/-- `FlowModuleSpecSummary.from_flow_mod_file`, with the file content given
as `none` (file absent) or `some lines`. -/
def from_flow_mod_file (env : Env) (file : Option (List (List Char))) : ParseResult :=
  match file with
  | none => .absent
  | some lines =>
    match from_flow_mod_lines env lines with
    | .error _ => .corrupt
    | .ok s => .ok s

/-- One dependency line of `FlowModuleSpecSummary.serialize`:
`f"{repo_id} {revision} {commit_hash} -> _/{os.path.relpath(sync_dir, sync_root)}"`. -/
def serializeModLine (sync_root : List Char) (s : FlowModuleSpec) : List Char :=
  s.repo_id ++ ' ' :: s.revision ++ ' ' :: s.commit_hash ++ arrowChars ++
    relpathAbs s.sync_dir sync_root

/-- `FlowModuleSpecSummary.serialize`, as the list of lines joined by
newlines in the source. -/
def FlowModuleSpecSummary.serialize (m : FlowModuleSpecSummary) : List (List Char) :=
  (syncRootKey ++ m.sync_root) :: (cacheRootKey ++ m.cache_root) ::
    m.mods.map (serializeModLine m.sync_root)

/-- `write_flow_mod_summary`: header, then the serialized summary (the file's
lines; the trailing newline written by the source is the line terminator of
the last line). -/
def write_flow_mod_summary_lines (m : FlowModuleSpecSummary) : List (List Char) :=
  REVISION_FILE_HEADER_LINES ++ m.serialize

/-- The lines written by `create_empty_flow_mod_file` when no manifest
exists. -/
def emptyManifestLines (sync_root cache_root : List Char) : List (List Char) :=
  REVISION_FILE_HEADER_LINES ++
    [syncRootKey ++ sync_root, cacheRootKey ++ cache_root]

mutual
/-- A filesystem tree for the modification detector: a regular file with its
byte content, a directory with its named entries (in `os.scandir` order), or
an entry that is neither (`other`, the `InvalidCacheEntry` case). -/
inductive FSTree where
  | file (content : List Nat)
  | dir (entries : FSEntries)
  | other
/-- The named entries of a directory, in `os.scandir` order. -/
inductive FSEntries where
  | nil
  | cons (name : List Char) (tree : FSTree) (rest : FSEntries)
end

/-- Look up a named entry of a directory tree; `none` when the path does not
resolve to an entry (missing name, or parent not a directory). -/
def childOf : Option FSTree → List Char → Option FSTree
  | some (.dir es), name => findEntry es name
  | _, _ => none
where
  findEntry : FSEntries → List Char → Option FSTree
    | .nil, _ => none
    | .cons n t rest, name => if n = name then some t else findEntry rest name

mutual

/-- `is_sync_dir_modified(sync_dir, cache_dir)`, translated statement by
statement (including the inverted handling of the recursive directory case:
the source binds the recursive result to `dir_same` and returns `True` when
`not dir_same`).  The sync side is an `Option` because the source only ever
touches sync paths through `filecmp`, which raises when they are missing;
`os.scandir` on a non-directory cache path also raises. -/
def is_sync_dir_modified (sync : Option FSTree) (cache : FSTree) : Except SyncErr Bool :=
  match cache with
  | .dir entries => scanCacheEntries sync entries
  | _ => .error .fileError

/-- The `for entry in os.scandir(cache_dir)` loop of `is_sync_dir_modified`. -/
def scanCacheEntries (sync : Option FSTree) (entries : FSEntries) : Except SyncErr Bool :=
  match entries with
  | .nil => .ok false
  | .cons name sub rest =>
    if (name.headD ' ' = '.') || name = pycacheChars then scanCacheEntries sync rest
    else
      match sub with
      | .file content =>
        match childOf sync name with
        | none => .error .fileError
        | some (.file c2) =>
          if content = c2 then scanCacheEntries sync rest else .ok true
        | some _ => .ok true
      | .dir subEntries =>
        match is_sync_dir_modified (childOf sync name) (.dir subEntries) with
        | .error e => .error e
        | .ok dir_same => if !dir_same then .ok true else scanCacheEntries sync rest
      | .other => .error .invalidCacheEntry
end

/-- A raw dependency request (one entry of the `dependencies` list). -/
structure DepReq where
  url : List Char
  revision : Option (List Char)
  overwrite : Bool
deriving DecidableEq, Repr

/-- The augmentation `validate_and_augment_dependency` adds to a request. -/
structure ValidatedDep where
  mod_name : List Char
  revision : List Char
  is_local : Bool
deriving DecidableEq, Repr

/-- `re.search(r"^(\w+)/(\w+)$", url)`: the two groups when the url is a
slash-separated pair of nonempty `\w+` parts (`\w` cannot match `/`, so at
most one decomposition qualifies). -/
def matchUserRepo (url : List Char) : Option (List Char × List Char) :=
  ((splitsOn ['/'] url).filter (fun p => wordCharsL p.1 && wordCharsL p.2)).head?

/-- `re.search(r"^\d+\w+$", s)`: a nonempty digit run followed by a nonempty
`\w` run, i.e. first character a digit, all characters `\w`, length at least
two. -/
def matchesNumPrefixed (s : List Char) : Bool :=
  match s with
  | [] => false
  | c :: rest => c.isDigit && !rest.isEmpty && rest.all wordChar

/-- `validate_and_augment_dependency`, returning the fields the source
writes back into the dependency dict plus the local/remote classification. -/
def validate_and_augment_dependency (env : Env) (dep : DepReq) :
    Except SyncErr ValidatedDep :=
  match matchUserRepo dep.url with
  | none => .error .invalidDependency
  | some (username, repo_name) =>
    if matchesNumPrefixed repo_name then .error .invalidDependency
    else
      let username2 := if matchesNumPrefixed username then userPrefixChars ++ username
                       else username
      let mod_name := username2 ++ '/' :: repo_name
      let revision := dep.revision.getD DEFAULT_REMOTE_REVISION
      if !env.fileExists revision then
        if revision.any (fun c => !wordChar c) then .error .invalidDependency
        else .ok { mod_name := mod_name, revision := revision, is_local := false }
      else if !env.isDir revision then .error .invalidDependency
      else if containsSub DEFAULT_FLOW_MODULE_FOLDER revision then .error .invalidDependency
      else .ok { mod_name := mod_name, revision := env.abspath revision, is_local := true }

/-- `extract_commit_hash_from_cache_mod_dir`: `os.path.basename`. -/
def extract_commit_hash_from_cache_mod_dir (cache_mod_dir : List Char) : List Char :=
  basename cache_mod_dir

/-- `fetch_remote`: two registry calls (cache materialization and working
copy materialization); the returned descriptor records the cache snapshot
path and the commit hash extracted from its basename.  The destructive
filesystem side effects (removal, `makedirs`, `__init__.py`) do not affect
the returned descriptor and are not modelled. -/
def fetch_remote (env : Env) (repo_id revision sync_dir cache_root : List Char) :
    FlowModuleSpec :=
  let sync_dir := env.abspath sync_dir
  let cache_mod_dir := env.cacheModDir repo_id revision cache_root
  { repo_id := repo_id, revision := revision,
    commit_hash := extract_commit_hash_from_cache_mod_dir cache_mod_dir,
    cache_dir := cache_mod_dir, sync_dir := sync_dir }

/-- `fetch_local`: symlink the sync location to the local path; fingerprint
is the sentinel, cache location is the local path itself. -/
def fetch_local (env : Env) (repo_id file_path sync_dir : List Char) : FlowModuleSpec :=
  let sync_dir := env.abspath sync_dir
  { repo_id := repo_id, revision := file_path, commit_hash := NO_COMMIT_HASH,
    cache_dir := file_path, sync_dir := sync_dir }

/-- Counters of the observable effects of one reconciliation:
`fetches` counts `fetch_remote`/`fetch_local` calls, `remoteLookups` counts
`retrive_commit_hash_from_remote` calls, `modifiedChecks` counts
`is_sync_dir_modified` calls, `prompts` counts confirmation questions,
`warnings` counts `logger.warn` calls. -/
structure SyncEffects where
  fetches : Nat
  remoteLookups : Nat
  modifiedChecks : Nat
  prompts : Nat
  warnings : Nat
deriving DecidableEq, Repr

/-- The all-zero effect counter. -/
def zeroEff : SyncEffects :=
  { fetches := 0, remoteLookups := 0, modifiedChecks := 0, prompts := 0, warnings := 0 }

/-- `sync_remote_dep`, with the effect counters of the executed branch.  The
`assert sync_dir == previous.sync_dir` is the `.error .assertionFailed`
case; it fires before the remote lookup and the modification check, which
the source then evaluates unconditionally (lines 663-668) before branching
on overwrite / module id / fingerprint / modification. -/
def sync_remote_dep (env : Env) (previous : Option FlowModuleSpec)
    (repo_id mod_name revision caller sync_root cache_root : List Char)
    (overwrite : Bool) : Except SyncErr FlowModuleSpec × SyncEffects :=
  let flow_mod_id := FlowModuleSpec.build_mod_id repo_id revision
  let sync_dir := env.abspath (pathJoin sync_root mod_name)
  match previous with
  | none =>
    (.ok (fetch_remote env repo_id revision sync_dir cache_root), { zeroEff with fetches := 1 })
  | some prev =>
    if sync_dir ≠ prev.sync_dir then (.error .assertionFailed, zeroEff)
    else
      let remote_commit_hash := env.remoteHash repo_id revision
      let remote_revision_commit_hash_changed := remote_commit_hash ≠ prev.commit_hash
      let sync_dir_modified := env.modified sync_dir prev.cache_dir
      let base := { zeroEff with remoteLookups := 1, modifiedChecks := 1 }
      if overwrite then
        if env.confirm (.overwriteRemote caller flow_mod_id) then
          (.ok (fetch_remote env repo_id revision sync_dir cache_root),
           { base with prompts := 1, fetches := 1 })
        else (.ok prev, { base with prompts := 1 })
      else if prev.mod_id ≠ flow_mod_id then
        if env.confirm (.replaceRemote caller prev.mod_id flow_mod_id) then
          (.ok (fetch_remote env repo_id revision sync_dir cache_root),
           { base with prompts := 1, fetches := 1 })
        else (.ok prev, { base with prompts := 1 })
      else if !remote_revision_commit_hash_changed then
        (.ok prev, base)
      else if !sync_dir_modified then
        (.ok (fetch_remote env repo_id revision sync_dir cache_root),
         { base with warnings := 1, fetches := 1 })
      else
        (.ok prev, { base with warnings := 1 })

/-- `sync_local_dep`, with effect counters.  The `isdir` check on the source
directory precedes everything; the sync-location assertion fires when a
previous descriptor exists. -/
def sync_local_dep (env : Env) (previous : Option FlowModuleSpec)
    (repo_id mod_name revision caller sync_root : List Char)
    (overwrite : Bool) : Except SyncErr FlowModuleSpec × SyncEffects :=
  let flow_mod_id := FlowModuleSpec.build_mod_id repo_id revision
  let module_synced_from_dir := revision
  let sync_dir := env.abspath (pathJoin sync_root mod_name)
  if !env.isDir module_synced_from_dir then (.error .invalidDependency, zeroEff)
  else
    match previous with
    | none =>
      (.ok (fetch_local env repo_id revision sync_dir), { zeroEff with fetches := 1 })
    | some prev =>
      if sync_dir ≠ prev.sync_dir then (.error .assertionFailed, zeroEff)
      else if overwrite then
        if env.confirm (.overwriteLocal caller flow_mod_id) then
          (.ok (fetch_local env repo_id module_synced_from_dir sync_dir),
           { zeroEff with prompts := 1, fetches := 1 })
        else (.ok prev, { zeroEff with prompts := 1 })
      else if prev.mod_id ≠ flow_mod_id then
        if env.confirm (.replaceLocal caller prev.mod_id flow_mod_id) then
          (.ok (fetch_local env repo_id module_synced_from_dir sync_dir),
           { zeroEff with prompts := 1, fetches := 1 })
        else (.ok prev, { zeroEff with prompts := 1 })
      else (.ok prev, zeroEff)

/-- One iteration of the `for dep in dependencies` loop of
`_sync_dependencies`: validate, look up the previous descriptor by the raw
url, reconcile, insert into the summary, then `install_requirements` (which
raises when `pip_requirements.txt` is missing from the sync location). -/
def processDep (env : Env) (sync_root cache_root caller : List Char)
    (all_overwrite : Bool) (S : FlowModuleSpecSummary) (d : DepReq) :
    Except SyncErr (FlowModuleSpecSummary × SyncEffects) :=
  match validate_and_augment_dependency env d with
  | .error e => .error e
  | .ok v =>
    let previous := S.get_mod d.url
    let r :=
      if v.is_local then
        sync_local_dep env previous d.url v.mod_name v.revision caller sync_root
          (all_overwrite || d.overwrite)
      else
        sync_remote_dep env previous d.url v.mod_name v.revision caller sync_root
          cache_root (all_overwrite || d.overwrite)
    match r.1 with
    | .error e => .error e
    | .ok spec =>
      if env.hasRequirementsFile spec.sync_dir then .ok (S.add_mod spec, r.2)
      else .error .missingRequirements

/-- The dependency loop: stops at the first failing dependency, returning
the per-dependency effect records of the successfully processed prefix. -/
def syncLoop (env : Env) (sync_root cache_root caller : List Char) (all_overwrite : Bool) :
    FlowModuleSpecSummary → List DepReq →
    Except SyncErr FlowModuleSpecSummary × List SyncEffects
  | S, [] => (.ok S, [])
  | S, d :: rest =>
    match processDep env sync_root cache_root caller all_overwrite S d with
    | .error e => (.error e, [])
    | .ok (S2, eff) =>
      let r := syncLoop env sync_root cache_root caller all_overwrite S2 rest
      (r.1, eff :: r.2)

deriving instance DecidableEq for Except

/-- The outcome of one `_sync_dependencies` call: its return value or raised
error, the manifest file's content afterwards (`none` = no file on disk),
and the per-dependency effect records. -/
structure RunResult where
  result : Except SyncErr FlowModuleSpecSummary
  file : Option (List (List Char))
  records : List SyncEffects
deriving DecidableEq, Repr

/-- Total number of fetches performed in a run. -/
def totalFetches (r : RunResult) : Nat :=
  (r.records.map (fun e => e.fetches)).sum

/-- `create_empty_flow_mod_file`: keep an existing manifest, else write the
empty one. -/
def ensureManifest (file : Option (List (List Char))) (sync_root cache_root : List Char) :
    List (List Char) :=
  match file with
  | some c => c
  | none => emptyManifestLines sync_root cache_root

/-- `_sync_dependencies` on the file state `file0` of the manifest.  The
sync root is derived from the base dir as in the source; the `sys.path`,
`mkdir`, `__init__.py` and `.gitignore` side effects do not influence the
returned summary or the manifest content and are not modelled.  The manifest
file is written only after the whole loop succeeds. -/
def _sync_dependencies (env : Env) (deps : List DepReq) (all_overwrite : Bool)
    (flow_modules_base_dir cache_root caller : List Char)
    (file0 : Option (List (List Char))) : RunResult :=
  let sync_root := env.abspath (pathJoin flow_modules_base_dir DEFAULT_FLOW_MODULE_FOLDER)
  if env.fileExists sync_root && !env.isDir sync_root then
    { result := .error .invalidSyncRoot, file := file0, records := [] }
  else
    let ensured := ensureManifest file0 sync_root cache_root
    match from_flow_mod_lines env ensured with
    | .error e => { result := .error e, file := some ensured, records := [] }
    | .ok S0 =>
      match syncLoop env sync_root cache_root caller all_overwrite S0 deps with
      | (.error e, recs) => { result := .error e, file := some ensured, records := recs }
      | (.ok S1, recs) =>
        { result := .ok S1, file := some (write_flow_mod_summary_lines S1), records := recs }

/-- A `namespace/name` pair: exactly one `/`, both parts nonempty `\w+`. -/
def slashPairOK (s : List Char) : Bool :=
  match splitChar '/' s with
  | [u, r] => wordCharsL u && wordCharsL r
  | _ => false

/-- A serializable root path: nonempty, no surrounding whitespace, no
newline, no trailing slash (spec 3: the roots are plain directory paths). -/
def rootPathOK (r : List Char) : Bool :=
  !r.isEmpty && !(r.headD ' ').isWhitespace && !(r.getLastD ' ').isWhitespace &&
  decide (r.getLastD ' ' ≠ '/') && r.all (fun c => c ≠ '\n')

/-- Spec 3 invariant: the sync location is `<sync_root>/<destination name>`
with the destination name of the form `namespace/name`. -/
def syncDirOK (sync_root sync_dir : List Char) : Bool :=
  decide (sync_dir.take (sync_root.length + 1) = sync_root ++ ['/']) &&
  slashPairOK (sync_dir.drop (sync_root.length + 1))

/-- The data-model invariants of one Module Descriptor (spec 3, plus the
cache-location law of spec 4.1): origin id of the form `namespace/name`;
sync location derived from the destination name; for a local revision
(an existing path) the sentinel fingerprint, cache location equal to the
sync location, and an absolute path as revision; for a remote revision a
`\w+` label, a `\w+` fingerprint, and the cache location recomputed from
(origin id, fingerprint, cache root). -/
def specWF (env : Env) (sync_root cache_root : List Char) (s : FlowModuleSpec) : Bool :=
  slashPairOK s.repo_id &&
  syncDirOK sync_root s.sync_dir &&
  !s.revision.isEmpty && s.revision.all (fun c => c ≠ '\n') &&
  (if is_local_revision env s.revision then
     decide (s.commit_hash = NO_COMMIT_HASH) && decide (s.cache_dir = s.sync_dir) &&
     decide (s.revision.headD ' ' = '/')
   else
     wordCharsL s.revision && wordCharsL s.commit_hash &&
     decide (s.cache_dir = build_hf_cache_path s.repo_id s.commit_hash cache_root))

/-- The data-model invariants of a Manifest (spec 3): well-formed roots, at
most one descriptor per origin id, and well-formed descriptors. -/
def summaryWF (env : Env) (m : FlowModuleSpecSummary) : Bool :=
  rootPathOK m.sync_root && rootPathOK m.cache_root &&
  decide ((m.mods.map (fun s => s.repo_id)).Nodup) &&
  m.mods.all (specWF env m.sync_root m.cache_root)

/-- The invariants of `summaryWF` strengthened by requiring every revision
to be whitespace-free (the amendment forced by the space-containing local
path counterexample). -/
def summaryWFStrict (env : Env) (m : FlowModuleSpecSummary) : Bool :=
  summaryWF env m && m.mods.all (fun s => noWsL s.revision)

/-- The corruption condition the parser actually enforces: bad header, bad
`sync_root:` line, bad `cache_root:` line, or a non-empty line failing the
dependency grammar among the lines before the first blank one. -/
def manifestCorruptCond (lines : List (List Char)) : Bool :=
  !(headerMatches lines &&
    (parseKeyLine syncRootKey (trimChars (lines.getD 3 []))).isSome &&
    (parseKeyLine cacheRootKey (trimChars (lines.getD 4 []))).isSome &&
    ((lines.drop 5).takeWhile (fun l => !(trimChars l).isEmpty)).all
      (fun l => (regexMatchFlowModLine (trimChars l)).isSome))

/-- The corruption condition as the claim words it: every non-empty line
after the `cache_root:` line — anywhere in the file — must match the
dependency grammar. -/
def claimedCorruptCond (lines : List (List Char)) : Bool :=
  !(headerMatches lines &&
    (parseKeyLine syncRootKey (trimChars (lines.getD 3 []))).isSome &&
    (parseKeyLine cacheRootKey (trimChars (lines.getD 4 []))).isSome &&
    ((lines.drop 5).filter (fun l => !(trimChars l).isEmpty)).all
      (fun l => (regexMatchFlowModLine (trimChars l)).isSome))

/-- A concrete environment in which exactly the directory `/a b` exists. -/
def envSpace : Env :=
  { fileExists := fun s => s == ('/' :: 'a' :: ' ' :: 'b' :: []),
    isDir := fun s => s == ('/' :: 'a' :: ' ' :: 'b' :: []),
    abspath := fun s => s,
    cacheModDir := fun _ _ cache_root => cache_root ++ '/' :: 'h' :: '1' :: [],
    remoteHash := fun _ _ => 'h' :: '1' :: [],
    modified := fun _ _ => false,
    confirm := fun _ => false,
    hasRequirementsFile := fun _ => true }

/-- A concrete environment in which no path exists. -/
def envNone : Env :=
  { fileExists := fun _ => false,
    isDir := fun _ => false,
    abspath := fun s => s,
    cacheModDir := fun _ _ cache_root => cache_root ++ '/' :: 'h' :: '1' :: [],
    remoteHash := fun _ _ => 'h' :: '1' :: [],
    modified := fun _ _ => false,
    confirm := fun _ => false,
    hasRequirementsFile := fun _ => true }

/-- A manifest with a single local descriptor whose revision path contains a
space: it satisfies the data-model invariants of `summaryWF` but its
serialized dependency line is misparsed by the greedy regex. -/
def mSpace : FlowModuleSpecSummary :=
  { sync_root := '/' :: 's' :: [],
    cache_root := '/' :: 'c' :: [],
    mods := [{ repo_id := 'u' :: '/' :: 'r' :: [],
               revision := '/' :: 'a' :: ' ' :: 'b' :: [],
               commit_hash := NO_COMMIT_HASH,
               cache_dir := '/' :: 's' :: '/' :: 'u' :: '/' :: 'r' :: [],
               sync_dir := '/' :: 's' :: '/' :: 'u' :: '/' :: 'r' :: [] }] }

/-- A strictly well-formed manifest with one remote and one local
descriptor, for the round-trip witness (`/d` is made to exist by `envD`). -/
def mGood : FlowModuleSpecSummary :=
  { sync_root := '/' :: 's' :: [],
    cache_root := '/' :: 'c' :: [],
    mods := [{ repo_id := 'u' :: '/' :: 'r' :: [],
               revision := 'm' :: 'a' :: 'i' :: 'n' :: [],
               commit_hash := 'h' :: '1' :: [],
               cache_dir := build_hf_cache_path ('u' :: '/' :: 'r' :: [])
                 ('h' :: '1' :: []) ('/' :: 'c' :: []),
               sync_dir := '/' :: 's' :: '/' :: 'u' :: '/' :: 'r' :: [] },
             { repo_id := 'v' :: '/' :: 'q' :: [],
               revision := '/' :: 'd' :: [],
               commit_hash := NO_COMMIT_HASH,
               cache_dir := '/' :: 's' :: '/' :: 'v' :: '/' :: 'q' :: [],
               sync_dir := '/' :: 's' :: '/' :: 'v' :: '/' :: 'q' :: [] }] }

/-- A concrete environment in which exactly the directory `/d` exists. -/
def envD : Env :=
  { fileExists := fun s => s == ('/' :: 'd' :: []),
    isDir := fun s => s == ('/' :: 'd' :: []),
    abspath := fun s => s,
    cacheModDir := fun _ _ cache_root => cache_root ++ '/' :: 'h' :: '1' :: [],
    remoteHash := fun _ _ => 'h' :: '1' :: [],
    modified := fun _ _ => false,
    confirm := fun _ => false,
    hasRequirementsFile := fun _ => true }

/-- The pristine cache tree of the C1 input: a top-level file `a` and a
subdirectory `s` containing the file `b`. -/
def cacheTreeC1 : FSTree :=
  .dir (.cons ('a' :: []) (.file [104, 105])
    (.cons ('s' :: []) (.dir (.cons ('b' :: []) (.file [1, 2, 3]) .nil)) .nil))

/-- The working copy with exactly one byte of `s/b` altered. -/
def syncTreeAltered : FSTree :=
  .dir (.cons ('a' :: []) (.file [104, 105])
    (.cons ('s' :: []) (.dir (.cons ('b' :: []) (.file [1, 2, 9]) .nil)) .nil))

/-- The dependency requests of the C5 counterexample: a valid remote
dependency followed by one whose url has no `/`. -/
def depsC5 : List DepReq :=
  [{ url := 'a' :: '/' :: 'b' :: [], revision := none, overwrite := false },
   { url := 'x' :: [], revision := none, overwrite := false }]

/-- A single local dependency request on the space-containing path `/a b`. -/
def depsSpace : List DepReq :=
  [{ url := 'u' :: '/' :: 'r' :: [], revision := some ('/' :: 'a' :: ' ' :: 'b' :: []),
     overwrite := false }]

/-- First `_sync_dependencies` call of the C7 counterexample (no manifest). -/
def runSpace1 : RunResult :=
  _sync_dependencies envSpace depsSpace false ('/' :: 'p' :: []) ('/' :: 'c' :: [])
    ('t' :: []) none

/-- Second, identical call, on the manifest the first call wrote. -/
def runSpace2 : RunResult :=
  _sync_dependencies envSpace depsSpace false ('/' :: 'p' :: []) ('/' :: 'c' :: [])
    ('t' :: []) runSpace1.file

/-- What the parser reconstructs from the serialized line of a well-formed
descriptor: the same descriptor with the cache location recomputed (spec 4.1:
recomputed for remote revisions, sync location for local ones). -/
def parsedOf (env : Env) (cache_root : List Char) (s : FlowModuleSpec) : FlowModuleSpec :=
  { s with cache_dir :=
      if !is_local_revision env s.revision then
        build_hf_cache_path s.repo_id s.commit_hash cache_root
      else s.sync_dir }

/-- The serialization-relevant well-formedness of one descriptor: shaped
origin id, sync dir under the sync root, whitespace-free nonempty revision
and fingerprint. -/
def LineWF (sync_root : List Char) (s : FlowModuleSpec) : Prop :=
  slashPairOK s.repo_id = true ∧ syncDirOK sync_root s.sync_dir = true ∧
  s.revision ≠ [] ∧ noWsL s.revision = true ∧
  s.commit_hash ≠ [] ∧ noWsL s.commit_hash = true

/-- `os.path.abspath` is the identity (all paths in play are absolute and
normalized). -/
def EnvAbsId (env : Env) : Prop := ∀ s, env.abspath s = s

/-- No working copy is locally modified. -/
def EnvUnmodified (env : Env) : Prop := ∀ a b, env.modified a b = false

/-- The upstream fingerprint of every revision is unchanged: the remote
lookup returns exactly the hash a fetch would record. -/
def EnvHashStable (env : Env) (cache_root : List Char) : Prop :=
  ∀ repo rev, env.remoteHash repo rev = basename (env.cacheModDir repo rev cache_root)

/-- Fetched cache snapshot paths end in a `\w+` content-address segment. -/
def EnvHashWF (env : Env) (cache_root : List Char) : Prop :=
  ∀ repo rev, wordCharsL (basename (env.cacheModDir repo rev cache_root)) = true

/-- Per-dependency side conditions of the amended idempotence claim: no
per-dependency overwrite flag, and a nonempty whitespace-free requested
revision. -/
def DepOK (d : DepReq) : Prop :=
  d.overwrite = false ∧ noWsL (d.revision.getD DEFAULT_REMOTE_REVISION) = true ∧
  (d.revision.getD DEFAULT_REMOTE_REVISION) ≠ []

/-- A previously synced remote descriptor used by concrete reconciliation
inputs (`sync_root = /s`, destination name `u/r`). -/
def prevUR : FlowModuleSpec :=
  { repo_id := 'u' :: '/' :: 'r' :: [],
    revision := 'm' :: 'a' :: 'i' :: 'n' :: [],
    commit_hash := 'h' :: '0' :: [],
    cache_dir := '/' :: 'c' :: '/' :: 'h' :: '0' :: [],
    sync_dir := '/' :: 's' :: '/' :: 'u' :: '/' :: 'r' :: [] }

/-- The dependency request of the C8 counterexample: name part `1`, a name
consisting only of digits. -/
def depDigit : DepReq :=
  { url := 'a' :: '/' :: '1' :: [], revision := none, overwrite := false }

/-- The `_sync_dependencies` run of the C5 counterexample. -/
def runC5 : RunResult :=
  _sync_dependencies envNone depsC5 false ('/' :: 'p' :: []) ('/' :: 'c' :: [])
    ('t' :: []) none

/-- The relation between a dependency list and the descriptors a fresh
first synchronization (no previous manifest entries) produces for it: each
dependency validates, is fetched by the branch its classification selects,
and has its requirements file present. -/
inductive FreshSync (env : Env) (sr cr : List Char) : List DepReq → List FlowModuleSpec → Prop
  | nil : FreshSync env sr cr [] []
  | cons {d : DepReq} {v : ValidatedDep} {spec : FlowModuleSpec}
      {ds : List DepReq} {specs : List FlowModuleSpec} :
      validate_and_augment_dependency env d = .ok v →
      spec = (if v.is_local then
          fetch_local env d.url v.revision (env.abspath (pathJoin sr v.mod_name))
        else
          fetch_remote env d.url v.revision (env.abspath (pathJoin sr v.mod_name)) cr) →
      env.hasRequirementsFile spec.sync_dir = true →
      FreshSync env sr cr ds specs →
      FreshSync env sr cr (d :: ds) (spec :: specs)

/-- A manifest file whose dependency section is a blank line followed by a
non-empty line that does not match the dependency grammar. -/
def linesBlankGarbage : List (List Char) :=
  emptyManifestLines ('/' :: 's' :: []) ('/' :: 'c' :: []) ++ [[], ['g']]

/-- Two well-behaved requests (one remote, one local on the existing
directory `/d`) for the idempotence witness. -/
def depsW : List DepReq :=
  [{ url := 'u' :: '/' :: 'r' :: [], revision := none, overwrite := false },
   { url := 'v' :: '/' :: 'q' :: [], revision := some ('/' :: 'd' :: []), overwrite := false }]

/-- The summary (and manifest content) the first witness run produces. -/
def summaryW : FlowModuleSpecSummary :=
  { sync_root := (r"/p/flow_modules").data,
    cache_root := '/' :: 'c' :: [],
    mods := [{ repo_id := 'u' :: '/' :: 'r' :: [],
               revision := 'm' :: 'a' :: 'i' :: 'n' :: [],
               commit_hash := 'h' :: '1' :: [],
               cache_dir := '/' :: 'c' :: '/' :: 'h' :: '1' :: [],
               sync_dir := (r"/p/flow_modules/u/r").data },
             { repo_id := 'v' :: '/' :: 'q' :: [],
               revision := '/' :: 'd' :: [],
               commit_hash := NO_COMMIT_HASH,
               cache_dir := '/' :: 'd' :: [],
               sync_dir := (r"/p/flow_modules/v/q").data }] }

/-- C1: the claim says altering one byte of one working-copy file at any
depth makes `is_sync_dir_modified` report a modification and reverting it
reports none.  On a tree with a subdirectory the code is inverted (it binds
the recursive result to `dir_same` and treats it as "same"): with one byte
of `s/b` altered it returns `false`, and on a byte-identical working copy it
returns `true`, contradicting its own docstring. -/
theorem C1_modification_detector_inverted_on_subdirs :
    is_sync_dir_modified (some syncTreeAltered) cacheTreeC1 = .ok false ∧
    is_sync_dir_modified (some cacheTreeC1) cacheTreeC1 = .ok true := by
  exact ⟨rfl, rfl⟩

/-- C2 (counterexample): a manifest satisfying the data-model invariants
whose single local descriptor has the revision path `/a b` (a space inside):
`Parse(Serialize(m))` succeeds but yields a different manifest, because the
greedy dependency-line regex misparses the space-containing revision. -/
theorem C2_roundtrip_counterexample :
    summaryWF envSpace mSpace = true ∧
    from_flow_mod_file envSpace (some (write_flow_mod_summary_lines mSpace)) ≠
      ParseResult.ok mSpace := by
  exact ⟨by decide, by decide⟩

/-- C4 (counterexample): with a previous descriptor present and the
effective overwrite flag set, the claim says the remote fingerprint lookup
and the modification check are not evaluated; the code evaluates both
(once each) before branching on overwrite. -/
theorem C4_lookups_counterexample :
    (sync_remote_dep envNone (some prevUR) ('u' :: '/' :: 'r' :: [])
      ('u' :: '/' :: 'r' :: []) ('m' :: 'a' :: 'i' :: 'n' :: []) ('t' :: [])
      ('/' :: 's' :: []) ('/' :: 'c' :: []) true).2.remoteLookups = 1 ∧
    (sync_remote_dep envNone (some prevUR) ('u' :: '/' :: 'r' :: [])
      ('u' :: '/' :: 'r' :: []) ('m' :: 'a' :: 'i' :: 'n' :: []) ('t' :: [])
      ('/' :: 's' :: []) ('/' :: 'c' :: []) true).2.modifiedChecks = 1 := by
  exact ⟨by decide, by decide⟩

/-- C5 (counterexample): the first dependency of `depsC5` is fetched
(one fetch recorded), the second fails validation; the run stops there,
and the persisted manifest is the freshly created empty one (five lines,
no dependency line), so it does not reflect the first dependency's
successful synchronization, contrary to the claim. -/
theorem C5_partial_manifest_counterexample :
    runC5.result = .error .invalidDependency ∧
    runC5.records = [{ zeroEff with fetches := 1 }] ∧
    runC5.file = some (emptyManifestLines
      (pathJoin ('/' :: 'p' :: []) DEFAULT_FLOW_MODULE_FOLDER) ('/' :: 'c' :: [])) ∧
    (emptyManifestLines
      (pathJoin ('/' :: 'p' :: []) DEFAULT_FLOW_MODULE_FOLDER) ('/' :: 'c' :: [])).length = 5 := by
  exact ⟨by decide, by decide, by decide, by decide⟩

/-- C6 (counterexample): a manifest file containing, after the
`cache_root:` line, a blank line followed by the non-matching line `g`.
The claim's condition ("any subsequent non-empty line fails the grammar")
holds, yet parsing succeeds with an empty manifest: the parser stops at the
first blank line and ignores everything after it. -/
theorem C6_parse_counterexample :
    claimedCorruptCond linesBlankGarbage = true ∧
    from_flow_mod_file envNone (some linesBlankGarbage) ≠ ParseResult.corrupt := by
  exact ⟨by decide, by decide⟩

/-- C7 (counterexample): syncing the single unmodified local dependency
`/a b` twice in a row (no fingerprint notion applies to local revisions,
nothing is modified) performs one fetch on the second call and grows the
manifest by a duplicated line, because the first call's manifest line is
misparsed on reload. -/
theorem C7_idempotence_counterexample :
    (∀ a b, envSpace.modified a b = false) ∧
    totalFetches runSpace2 = 1 ∧ runSpace2.file ≠ runSpace1.file := by
  exact ⟨fun _ _ => rfl, by decide, by decide⟩

/-- C8 (counterexample): the request `a/1`, whose name part is the single
digit `1` (a name consisting only of digits), is accepted by validation
(the regex `^\d+\w+$` needs at least two characters), contrary to the
claim that it fails. -/
theorem C8_digit_name_counterexample :
    validate_and_augment_dependency envNone depDigit =
      .ok { mod_name := 'a' :: '/' :: '1' :: [], revision := DEFAULT_REMOTE_REVISION,
            is_local := false } := by
  exact (by decide)

/-- `os.path.join` appends with a slash when the second part is not absolute
and the first has no trailing slash. -/
theorem pathJoin_cons (a b : List Char) (hb : b.head? ≠ some '/')
    (ha : a.getLast? ≠ some '/') : pathJoin a b = a ++ '/' :: b := by
  unfold pathJoin
  rw [if_neg hb, if_neg ha]

/-- A successful `^(\w+)/(\w+)$` match yields two nonempty `\w+` groups. -/
theorem matchUserRepo_wordChars {url : List Char} {p : List Char × List Char}
    (h : matchUserRepo url = some p) : wordCharsL p.1 = true ∧ wordCharsL p.2 = true := by
  unfold matchUserRepo at h
  have hmem : p ∈ (splitsOn ['/'] url).filter (fun q => wordCharsL q.1 && wordCharsL q.2) :=
    List.mem_of_mem_head? (Option.mem_def.mpr h)
  have h2 := (List.mem_filter.mp hmem).2
  simpa using h2

/-- C3: for a remote dependency with a previous descriptor, overwrite off
and module id unchanged, a changed upstream fingerprint leads to an
automatic re-fetch with a warning and no prompt when the working copy is
unmodified, and to keeping the previous descriptor with a warning, no
prompt and no fetch when it is modified. -/
theorem C3_upstream_advanced (env : Env) (prev : FlowModuleSpec)
    (repo_id mod_name revision caller sync_root cache_root : List Char)
    (hsync : env.abspath (pathJoin sync_root mod_name) = prev.sync_dir)
    (hid : prev.mod_id = FlowModuleSpec.build_mod_id repo_id revision)
    (hhash : env.remoteHash repo_id revision ≠ prev.commit_hash) :
    (env.modified prev.sync_dir prev.cache_dir = false →
      sync_remote_dep env (some prev) repo_id mod_name revision caller sync_root
        cache_root false =
      (.ok (fetch_remote env repo_id revision prev.sync_dir cache_root),
       { fetches := 1, remoteLookups := 1, modifiedChecks := 1, prompts := 0,
         warnings := 1 })) ∧
    (env.modified prev.sync_dir prev.cache_dir = true →
      sync_remote_dep env (some prev) repo_id mod_name revision caller sync_root
        cache_root false =
      (.ok prev,
       { fetches := 0, remoteLookups := 1, modifiedChecks := 1, prompts := 0,
         warnings := 1 })) := by
  constructor <;> intro hmod <;> simp [sync_remote_dep, hsync, hid, hhash, hmod, zeroEff]

/-- C3 (witness): the two branches at concrete inputs. -/
theorem C3_upstream_advanced_witness :
    (sync_remote_dep envNone (some prevUR) ('u' :: '/' :: 'r' :: [])
       ('u' :: '/' :: 'r' :: []) ('m' :: 'a' :: 'i' :: 'n' :: []) ('t' :: [])
       ('/' :: 's' :: []) ('/' :: 'c' :: []) false =
     (.ok (fetch_remote envNone ('u' :: '/' :: 'r' :: []) ('m' :: 'a' :: 'i' :: 'n' :: [])
        prevUR.sync_dir ('/' :: 'c' :: [])),
      { fetches := 1, remoteLookups := 1, modifiedChecks := 1, prompts := 0,
        warnings := 1 })) ∧
    (sync_remote_dep { envNone with modified := fun _ _ => true } (some prevUR)
       ('u' :: '/' :: 'r' :: []) ('u' :: '/' :: 'r' :: [])
       ('m' :: 'a' :: 'i' :: 'n' :: []) ('t' :: []) ('/' :: 's' :: [])
       ('/' :: 'c' :: []) false =
     (.ok prevUR,
      { fetches := 0, remoteLookups := 1, modifiedChecks := 1, prompts := 0,
        warnings := 1 })) := by
  constructor
  · exact (C3_upstream_advanced envNone prevUR _ _ _ _ _ _ (by decide) (by decide)
      (by decide)).1 rfl
  · exact (C3_upstream_advanced { envNone with modified := fun _ _ => true } prevUR
      _ _ _ _ _ _ (by decide) (by decide) (by decide)).2 rfl

/-- C4 (amended): the remote fingerprint lookup and the modification check
are skipped exactly when there is no previous descriptor; whenever a
previous descriptor exists (and the sync-location assertion passes) both
are evaluated once, before any branching on overwrite or module id. -/
theorem C4_lookups_amended (env : Env) (prev : FlowModuleSpec)
    (repo_id mod_name revision caller sync_root cache_root : List Char) (overwrite : Bool) :
    ((sync_remote_dep env none repo_id mod_name revision caller sync_root
        cache_root overwrite).2.remoteLookups = 0 ∧
     (sync_remote_dep env none repo_id mod_name revision caller sync_root
        cache_root overwrite).2.modifiedChecks = 0) ∧
    (env.abspath (pathJoin sync_root mod_name) = prev.sync_dir →
     (sync_remote_dep env (some prev) repo_id mod_name revision caller sync_root
        cache_root overwrite).2.remoteLookups = 1 ∧
     (sync_remote_dep env (some prev) repo_id mod_name revision caller sync_root
        cache_root overwrite).2.modifiedChecks = 1) := by
  refine ⟨⟨rfl, rfl⟩, fun h => ?_⟩
  constructor <;>
    (simp only [sync_remote_dep, h]
     rw [if_neg (by simp)]
     split_ifs <;> rfl)

/-- C4 (witness): the amended statement at concrete inputs. -/
theorem C4_lookups_amended_witness :
    ((sync_remote_dep envNone none ('u' :: '/' :: 'r' :: []) ('u' :: '/' :: 'r' :: [])
        ('m' :: 'a' :: 'i' :: 'n' :: []) ('t' :: []) ('/' :: 's' :: [])
        ('/' :: 'c' :: []) true).2.remoteLookups = 0 ∧
     (sync_remote_dep envNone none ('u' :: '/' :: 'r' :: []) ('u' :: '/' :: 'r' :: [])
        ('m' :: 'a' :: 'i' :: 'n' :: []) ('t' :: []) ('/' :: 's' :: [])
        ('/' :: 'c' :: []) true).2.modifiedChecks = 0) ∧
    ((sync_remote_dep envNone (some prevUR) ('u' :: '/' :: 'r' :: [])
        ('u' :: '/' :: 'r' :: []) ('m' :: 'a' :: 'i' :: 'n' :: []) ('t' :: [])
        ('/' :: 's' :: []) ('/' :: 'c' :: []) true).2.remoteLookups = 1 ∧
     (sync_remote_dep envNone (some prevUR) ('u' :: '/' :: 'r' :: [])
        ('u' :: '/' :: 'r' :: []) ('m' :: 'a' :: 'i' :: 'n' :: []) ('t' :: [])
        ('/' :: 's' :: []) ('/' :: 'c' :: []) true).2.modifiedChecks = 1) := by
  have h := C4_lookups_amended envNone prevUR ('u' :: '/' :: 'r' :: [])
    ('u' :: '/' :: 'r' :: []) ('m' :: 'a' :: 'i' :: 'n' :: []) ('t' :: [])
    ('/' :: 's' :: []) ('/' :: 'c' :: []) true
  exact ⟨h.1, h.2 (by decide)⟩

/-- C8 (amended): a request whose name part starts with a digit fails
validation whenever the name has at least two characters; the rejection is
an error, not a rewrite.  (A single-character digit name escapes the
`^\d+\w+$` check, as the counterexample shows.) -/
theorem C8_digit_name_amended (env : Env) (dep : DepReq) (u : List Char) (c : Char)
    (cs : List Char) (hmatch : matchUserRepo dep.url = some (u, c :: cs))
    (hc : c.isDigit = true) (hcs : cs ≠ []) :
    validate_and_augment_dependency env dep = .error .invalidDependency := by
  have hw := (matchUserRepo_wordChars hmatch).2
  have hnum : matchesNumPrefixed (c :: cs) = true := by
    simp only [matchesNumPrefixed, hc, Bool.true_and, Bool.and_eq_true]
    refine ⟨by simpa using hcs, ?_⟩
    simp only [wordCharsL, Bool.and_eq_true, List.all_cons] at hw
    exact hw.2.2
  unfold validate_and_augment_dependency
  rw [hmatch]
  simp [hnum]

/-- C8 (witness): the request `a/12` is rejected. -/
theorem C8_digit_name_amended_witness :
    validate_and_augment_dependency envNone
      { url := 'a' :: '/' :: '1' :: '2' :: [], revision := none, overwrite := false } =
      .error .invalidDependency := by
  exact C8_digit_name_amended envNone _ ('a' :: []) '1' ('2' :: []) (by decide)
    (by decide) (by decide)

/-- C10: when a previous descriptor exists and the request's destination
name differs from the one it was synced under, the derived sync location
differs from the recorded one and both `sync_remote_dep` and
`sync_local_dep` fail their `assert sync_dir == previous.sync_dir`
(an AssertionError, not a descriptive validation error). -/
theorem C10_sync_location_assert (env : Env) (prev : FlowModuleSpec)
    (repo_id mod_name revision caller sync_root cache_root oldName : List Char) (ow : Bool)
    (habs : EnvAbsId env)
    (hroot : sync_root.getLast? ≠ some '/')
    (hprev : prev.sync_dir = pathJoin sync_root oldName)
    (hne : mod_name ≠ oldName)
    (h1 : mod_name.head? ≠ some '/') (h2 : oldName.head? ≠ some '/')
    (hdir : env.isDir revision = true) :
    (sync_remote_dep env (some prev) repo_id mod_name revision caller sync_root
      cache_root ow).1 = .error .assertionFailed ∧
    (sync_local_dep env (some prev) repo_id mod_name revision caller sync_root ow).1 =
      .error .assertionFailed := by
  have hd : env.abspath (pathJoin sync_root mod_name) ≠ prev.sync_dir := by
    rw [habs, hprev, pathJoin_cons _ _ h1 hroot, pathJoin_cons _ _ h2 hroot]
    intro hcontra
    exact hne (by simpa using List.append_cancel_left hcontra)
  constructor
  · simp only [sync_remote_dep]
    rw [if_pos hd]
  · simp only [sync_local_dep]
    rw [if_neg (by simp [hdir])]
    rw [if_pos hd]

/-- C10 (witness): renaming the destination of the already-synced `u/r`
from `u/r` to `n/m` trips the assertion in both reconciliation paths. -/
theorem C10_sync_location_assert_witness :
    (sync_remote_dep envSpace (some prevUR) ('u' :: '/' :: 'r' :: [])
      ('n' :: '/' :: 'm' :: []) ('/' :: 'a' :: ' ' :: 'b' :: []) ('t' :: [])
      ('/' :: 's' :: []) ('/' :: 'c' :: []) false).1 = .error .assertionFailed ∧
    (sync_local_dep envSpace (some prevUR) ('u' :: '/' :: 'r' :: [])
      ('n' :: '/' :: 'm' :: []) ('/' :: 'a' :: ' ' :: 'b' :: []) ('t' :: [])
      ('/' :: 's' :: []) false).1 = .error .assertionFailed := by
  exact C10_sync_location_assert envSpace prevUR _ _ _ _ _ _ ('u' :: '/' :: 'r' :: []) false
    (fun _ => rfl) (by decide) (by decide) (by decide) (by decide) (by decide) (by decide)

/-- C5 (amended): the driver stops at the first failing dependency (the
loop returns its error and processes nothing further), and on any failure
the manifest file is not updated at all: it keeps whatever the
ensure-exists step left (the pre-existing manifest, or the freshly created
empty one), reflecting none of that call's synchronizations. -/
theorem C5_failure_leaves_manifest :
    (∀ (env : Env) (deps : List DepReq) (ow : Bool) (base cr caller : List Char)
       (file0 : Option (List (List Char))) (e : SyncErr),
       (_sync_dependencies env deps ow base cr caller file0).result = .error e →
       (_sync_dependencies env deps ow base cr caller file0).file = file0 ∨
       (_sync_dependencies env deps ow base cr caller file0).file =
         some (ensureManifest file0
           (env.abspath (pathJoin base DEFAULT_FLOW_MODULE_FOLDER)) cr)) ∧
    (∀ (env : Env) (sr cr caller : List Char) (ow : Bool) (S : FlowModuleSpecSummary)
       (d : DepReq) (rest : List DepReq) (e : SyncErr),
       processDep env sr cr caller ow S d = .error e →
       syncLoop env sr cr caller ow S (d :: rest) = (.error e, [])) := by
  constructor
  · intro env deps ow base cr caller file0 e h
    by_cases hg : (env.fileExists (env.abspath (pathJoin base DEFAULT_FLOW_MODULE_FOLDER)) &&
        !env.isDir (env.abspath (pathJoin base DEFAULT_FLOW_MODULE_FOLDER))) = true
    · simp only [_sync_dependencies, if_pos hg]
      exact Or.inl trivial
    · rcases hE : from_flow_mod_lines env
          (ensureManifest file0 (env.abspath (pathJoin base DEFAULT_FLOW_MODULE_FOLDER)) cr)
        with e0 | S0
      · simp only [_sync_dependencies, if_neg hg, hE]
        exact Or.inr trivial
      · rcases hL : syncLoop env (env.abspath (pathJoin base DEFAULT_FLOW_MODULE_FOLDER)) cr
          caller ow S0 deps with ⟨res, recs⟩
        cases res with
        | error e1 =>
          simp only [_sync_dependencies, if_neg hg, hE, hL]
          exact Or.inr trivial
        | ok S1 =>
          exfalso
          simp only [_sync_dependencies, if_neg hg, hE, hL] at h
          exact Except.noConfusion h
  · intro env sr cr caller ow S d rest e h
    simp only [syncLoop, h]

/-- C5 (witness): the amended statement at the concrete failing run. -/
theorem C5_failure_leaves_manifest_witness :
    (runC5.file = (none : Option (List (List Char))) ∨
     runC5.file = some (ensureManifest none
       (envNone.abspath (pathJoin ('/' :: 'p' :: []) DEFAULT_FLOW_MODULE_FOLDER))
       ('/' :: 'c' :: []))) ∧
    syncLoop envNone ('/' :: 's' :: []) ('/' :: 'c' :: []) ('t' :: []) false
      { sync_root := '/' :: 's' :: [], cache_root := '/' :: 'c' :: [], mods := [] }
      ({ url := 'x' :: [], revision := none, overwrite := false } :: depsC5) =
      (.error .invalidDependency, []) := by
  constructor
  · exact C5_failure_leaves_manifest.1 envNone depsC5 false ('/' :: 'p' :: [])
      ('/' :: 'c' :: []) ('t' :: []) none .invalidDependency (by decide)
  · exact C5_failure_leaves_manifest.2 envNone ('/' :: 's' :: []) ('/' :: 'c' :: [])
      ('t' :: []) false _ _ depsC5 .invalidDependency (by decide)

/-- `dictInsert` preserves distinctness of the `repo_id` keys. -/
theorem keys_dictInsert (l : List FlowModuleSpec) (s : FlowModuleSpec)
    (h : (l.map (fun x => x.repo_id)).Nodup) :
    ((dictInsert l s).map (fun x => x.repo_id)).Nodup := by
  unfold dictInsert
  split
  next hany =>
    have hmap : (l.map (fun x => if x.repo_id = s.repo_id then s else x)).map
        (fun x => x.repo_id) = l.map (fun x => x.repo_id) := by
      rw [List.map_map]
      apply List.map_congr_left
      intro x _
      by_cases hk : x.repo_id = s.repo_id
      · simp [hk]
      · simp [hk]
    rw [hmap]
    exact h
  next hany =>
    simp only [List.any_eq_true, not_exists, not_and] at hany
    rw [List.map_append]
    simp only [List.map_cons, List.map_nil]
    rw [List.nodup_append]
    refine ⟨h, List.nodup_singleton _, ?_⟩
    intro k hk
    simp only [List.mem_map] at hk
    obtain ⟨x, hx, hxk⟩ := hk
    have hne := hany x hx
    simp only [List.mem_singleton]
    intro hks
    exact (by simpa [hxk, hks] using hne)

/-- Folding `dictInsert` preserves key distinctness. -/
theorem keys_foldl_dictInsert (l : List FlowModuleSpec) :
    ∀ acc : List FlowModuleSpec, ((acc.map (fun x => x.repo_id)).Nodup) →
      (((l.foldl dictInsert acc).map (fun x => x.repo_id)).Nodup) := by
  induction l with
  | nil => intro acc h; simpa using h
  | cons a t ih => intro acc h; exact ih _ (keys_dictInsert _ _ h)

/-- A dict built from any list has distinct keys. -/
theorem keys_dictOfList (l : List FlowModuleSpec) :
    ((dictOfList l).map (fun x => x.repo_id)).Nodup :=
  keys_foldl_dictInsert l [] (by simp)

/-- Inserting at an existing key does not change the dict's size. -/
theorem dictInsert_length_of_any (l : List FlowModuleSpec) (s : FlowModuleSpec)
    (h : l.any (fun x => x.repo_id = s.repo_id) = true) :
    (dictInsert l s).length = l.length := by
  unfold dictInsert
  rw [if_pos h, List.length_map]

/-- A successful `processDep` produces the summary extended by `add_mod`. -/
theorem processDep_ok_addmod {env : Env} {sr cr caller : List Char} {ow : Bool}
    {S : FlowModuleSpecSummary} {d : DepReq} {S2 : FlowModuleSpecSummary}
    {eff : SyncEffects} (h : processDep env sr cr caller ow S d = .ok (S2, eff)) :
    ∃ spec, S2 = S.add_mod spec := by
  unfold processDep at h
  rcases hv : validate_and_augment_dependency env d with e | v
  · rw [hv] at h; exact Except.noConfusion h
  · rw [hv] at h
    simp only at h
    generalize hr : (if v.is_local = true then
        sync_local_dep env (S.get_mod d.url) d.url v.mod_name v.revision caller sr
          (ow || d.overwrite)
      else
        sync_remote_dep env (S.get_mod d.url) d.url v.mod_name v.revision caller sr cr
          (ow || d.overwrite)) = r at h
    rcases hr1 : r.1 with e | spec
    · rw [hr1] at h; exact Except.noConfusion h
    · rw [hr1] at h
      have h2 : (if env.hasRequirementsFile spec.sync_dir = true then
          Except.ok (S.add_mod spec, r.2)
        else Except.error SyncErr.missingRequirements) = Except.ok (S2, eff) := h
      by_cases hreq : env.hasRequirementsFile spec.sync_dir = true
      · rw [if_pos hreq] at h2
        refine ⟨spec, ?_⟩
        have h3 := Except.ok.inj h2
        exact (Prod.mk.injEq .. ▸ h3).1.symm
      · rw [if_neg hreq] at h2
        exact Except.noConfusion h2

/-- The dependency loop preserves key distinctness of the summary. -/
theorem syncLoop_ok_nodup (env : Env) (sr cr caller : List Char) (ow : Bool) :
    ∀ (ds : List DepReq) (S S1 : FlowModuleSpecSummary) (recs : List SyncEffects),
      (S.mods.map (fun x => x.repo_id)).Nodup →
      syncLoop env sr cr caller ow S ds = (.ok S1, recs) →
      (S1.mods.map (fun x => x.repo_id)).Nodup := by
  intro ds
  induction ds with
  | nil =>
    intro S S1 recs h hl
    simp only [syncLoop, Prod.mk.injEq] at hl
    obtain ⟨h1, _⟩ := hl
    obtain rfl := Except.ok.inj h1
    exact h
  | cons d rest ih =>
    intro S S1 recs h hl
    simp only [syncLoop] at hl
    split at hl
    · simp only [Prod.mk.injEq] at hl
      exact Except.noConfusion hl.1
    next S2 eff heq =>
      simp only [Prod.mk.injEq] at hl
      obtain ⟨spec, rfl⟩ := processDep_ok_addmod heq
      have h2 : ((FlowModuleSpecSummary.add_mod S spec).mods.map
          (fun x => x.repo_id)).Nodup := by
        simpa [FlowModuleSpecSummary.add_mod] using keys_dictInsert S.mods spec h
      exact ih _ S1 _ h2 (by
        rw [Prod.ext_iff]
        exact ⟨hl.1, rfl⟩)

/-- A successfully parsed manifest's module list is a dict of some list. -/
theorem parse_ok_mods {env : Env} {lines : List (List Char)} {S : FlowModuleSpecSummary}
    (h : from_flow_mod_lines env lines = .ok S) : ∃ l, S.mods = dictOfList l := by
  unfold from_flow_mod_lines at h
  split at h
  · exact Except.noConfusion h
  · split at h
    · exact Except.noConfusion h
    · split at h
      · exact Except.noConfusion h
      · split at h
        · exact Except.noConfusion h
        next mods heq =>
          refine ⟨mods, ?_⟩
          obtain rfl := Except.ok.inj h
          rfl

/-- A successful driver run returns a summary with distinct origin ids. -/
theorem driver_ok_mods_nodup {env : Env} {deps : List DepReq} {ow : Bool}
    {base cr caller : List Char} {file0 : Option (List (List Char))}
    {S1 : FlowModuleSpecSummary}
    (h : (_sync_dependencies env deps ow base cr caller file0).result = .ok S1) :
    (S1.mods.map (fun x => x.repo_id)).Nodup := by
  by_cases hg : (env.fileExists (env.abspath (pathJoin base DEFAULT_FLOW_MODULE_FOLDER)) &&
      !env.isDir (env.abspath (pathJoin base DEFAULT_FLOW_MODULE_FOLDER))) = true
  · simp only [_sync_dependencies, if_pos hg] at h
    exact Except.noConfusion h
  · rcases hE : from_flow_mod_lines env
        (ensureManifest file0 (env.abspath (pathJoin base DEFAULT_FLOW_MODULE_FOLDER)) cr)
      with e0 | S0
    · simp only [_sync_dependencies, if_neg hg, hE] at h
      exact Except.noConfusion h
    · rcases hL : syncLoop env (env.abspath (pathJoin base DEFAULT_FLOW_MODULE_FOLDER)) cr
        caller ow S0 deps with ⟨res, recs⟩
      cases res with
      | error e1 =>
        simp only [_sync_dependencies, if_neg hg, hE, hL] at h
        exact Except.noConfusion h
      | ok S1x =>
        simp only [_sync_dependencies, if_neg hg, hE, hL] at h
        obtain rfl := Except.ok.inj h
        obtain ⟨l0, hm⟩ := parse_ok_mods hE
        have h0 : (S0.mods.map (fun x => x.repo_id)).Nodup := by
          rw [hm]; exact keys_dictOfList l0
        exact syncLoop_ok_nodup env _ cr caller ow deps S0 S1x recs h0 hL

/-- C9: the manifest holds at most one descriptor per origin id: the dict
constructor deduplicates, `add_mod` preserves distinct keys (and replaces
in place, leaving the size unchanged when the key exists), and every
successful driver run returns a summary with distinct origin ids. -/
theorem C9_unique_origin :
    (∀ l : List FlowModuleSpec, ((dictOfList l).map (fun x => x.repo_id)).Nodup) ∧
    (∀ (S : FlowModuleSpecSummary) (spec : FlowModuleSpec),
      (S.mods.map (fun x => x.repo_id)).Nodup →
      ((S.add_mod spec).mods.map (fun x => x.repo_id)).Nodup) ∧
    (∀ (S : FlowModuleSpecSummary) (spec x : FlowModuleSpec),
      S.get_mod spec.repo_id = some x →
      (S.add_mod spec).mods.length = S.mods.length) ∧
    (∀ (env : Env) (deps : List DepReq) (ow : Bool) (base cr caller : List Char)
       (file0 : Option (List (List Char))) (S1 : FlowModuleSpecSummary),
      (_sync_dependencies env deps ow base cr caller file0).result = .ok S1 →
      (S1.mods.map (fun x => x.repo_id)).Nodup) := by
  refine ⟨keys_dictOfList, ?_, ?_, ?_⟩
  · intro S spec h
    simpa [FlowModuleSpecSummary.add_mod] using keys_dictInsert S.mods spec h
  · intro S spec x h
    have hany : S.mods.any (fun y => y.repo_id = spec.repo_id) = true := by
      unfold FlowModuleSpecSummary.get_mod at h
      have hmem := List.mem_of_find?_eq_some h
      have hp := List.find?_some h
      simp only [decide_eq_true_eq] at hp
      exact List.any_eq_true.mpr ⟨x, hmem, by simpa using hp⟩
    simpa [FlowModuleSpecSummary.add_mod] using dictInsert_length_of_any S.mods spec hany
  · intro env deps ow base cr caller file0 S1 h
    exact driver_ok_mods_nodup h

/-- C9 (witness): the statement applied at concrete inputs. -/
theorem C9_unique_origin_witness :
    ((dictOfList mGood.mods).map (fun x => x.repo_id)).Nodup ∧
    ((mGood.add_mod prevUR).mods.map (fun x => x.repo_id)).Nodup ∧
    (mGood.add_mod { prevUR with repo_id := 'u' :: '/' :: 'r' :: [] }).mods.length =
      mGood.mods.length ∧
    ((FlowModuleSpecSummary.mk
        (pathJoin ('/' :: 'p' :: []) DEFAULT_FLOW_MODULE_FOLDER) ('/' :: 'c' :: [])
        []).mods.map (fun x => x.repo_id)).Nodup := by
  refine ⟨C9_unique_origin.1 mGood.mods, ?_, ?_, ?_⟩
  · exact C9_unique_origin.2.1 mGood prevUR (by decide)
  · exact C9_unique_origin.2.2.1 mGood _ (mGood.mods.getD 0 prevUR) (by decide)
  · exact C9_unique_origin.2.2.2 envNone [] false ('/' :: 'p' :: []) ('/' :: 'c' :: [])
      ('t' :: []) none _ (by decide)
/-- A `\w` character is not whitespace. -/
theorem wordChar_not_ws {c : Char} (h : wordChar c = true) : c.isWhitespace = false := by
  by_contra hws
  rw [Bool.not_eq_false] at hws
  have hcases : ((c = ' ' ∨ c = '\t') ∨ c = '\r') ∨ c = '\n' := by
    simpa [Char.isWhitespace] using hws
  rcases hcases with ((rfl | rfl) | rfl) | rfl <;> exact absurd h (by decide)

/-- A character failing a predicate is not in a list satisfying it. -/
theorem not_mem_of_all_pos {p : Char → Bool} {l : List Char} {c : Char}
    (h : l.all p = true) (hc : p c = false) : c ∉ l := by
  intro hmem
  have hall := List.all_eq_true.mp h c hmem
  rw [hc] at hall
  exact Bool.noConfusion hall

/-- Stripping is the identity on a line with non-whitespace ends. -/
theorem trimChars_eq_self {s : List Char}
    (h1 : ∀ c, s.head? = some c → c.isWhitespace = false)
    (h2 : ∀ c, s.getLast? = some c → c.isWhitespace = false) :
    trimChars s = s := by
  unfold trimChars
  cases s with
  | nil => rfl
  | cons a t =>
    rw [List.dropWhile_cons, if_neg (by simp [h1 a rfl])]
    rcases hr : (a :: t).reverse with _ | ⟨b, rt⟩
    · exact absurd hr (by simp)
    · have hb : (a :: t).getLast? = some b := by
        rw [← List.head?_reverse, hr]; rfl
      rw [List.dropWhile_cons, if_neg (by simp [h2 b hb])]
      rw [← hr, List.reverse_reverse]

/-- `splitsOn` enumerates exactly the decompositions around the separator. -/
theorem mem_splitsOn (sep : List Char) :
    ∀ (s pre post : List Char), (pre, post) ∈ splitsOn sep s ↔ pre ++ (sep ++ post) = s := by
  intro s
  induction s with
  | nil =>
    intro pre post
    simp only [splitsOn]
    by_cases hsep : sep.isEmpty
    · rw [if_pos hsep]
      rw [List.isEmpty_iff] at hsep
      subst hsep
      simp [List.append_eq_nil]
    · rw [if_neg hsep]
      rw [List.isEmpty_iff] at hsep
      simp [List.append_eq_nil, hsep]
  | cons c rest ih =>
    intro pre post
    simp only [splitsOn, List.mem_append, List.mem_map]
    constructor
    · rintro (hfirst | ⟨⟨p1, p2⟩, hp, heq⟩)
      · by_cases htake : (c :: rest).take sep.length = sep
        · rw [if_pos htake] at hfirst
          simp only [List.mem_singleton, Prod.mk.injEq] at hfirst
          obtain ⟨rfl, rfl⟩ := hfirst
          simp only [List.nil_append]
          conv_rhs => rw [← List.take_append_drop sep.length (c :: rest)]
          rw [htake]
        · rw [if_neg htake] at hfirst
          exact absurd hfirst (List.not_mem_nil _)
      · simp only [Prod.mk.injEq] at heq
        obtain ⟨h1, h2⟩ := heq
        subst h1
        subst h2
        have hmem := (ih p1 p2).mp (by simpa using hp)
        rw [List.cons_append, hmem]
    · intro heq
      cases pre with
      | nil =>
        left
        simp only [List.nil_append] at heq
        have htake : (c :: rest).take sep.length = sep := by
          rw [← heq, List.take_left]
        rw [if_pos htake]
        have hdrop : (c :: rest).drop sep.length = post := by
          rw [← heq, List.drop_left]
        simp [hdrop]
      | cons p ptl =>
        right
        simp only [List.cons_append] at heq
        obtain ⟨rfl, htl⟩ := List.cons.inj heq
        exact ⟨(ptl, post), by simpa using (ih ptl post).mpr htl, rfl⟩

/-- `lineSplits` enumerates exactly the decompositions of a line along the
dependency-line pattern, with all five groups nonempty. -/
theorem mem_lineSplits {s : List Char}
    {t : List Char × List Char × List Char × List Char × List Char} :
    t ∈ lineSplits s ↔
      (t.1 ++ '/' :: (t.2.1 ++ ' ' :: (t.2.2.1 ++ ' ' :: (t.2.2.2.1 ++ arrowChars ++ t.2.2.2.2))) = s ∧
       t.1 ≠ [] ∧ t.2.1 ≠ [] ∧ t.2.2.1 ≠ [] ∧ t.2.2.2.1 ≠ [] ∧ t.2.2.2.2 ≠ []) := by
  obtain ⟨g1, g2, g3, g4, g5⟩ := t
  simp only [lineSplits, List.mem_flatMap, List.mem_filterMap]
  constructor
  · rintro ⟨⟨p1a, p1b⟩, hp1, ⟨p2a, p2b⟩, hp2, ⟨p3a, p3b⟩, hp3, ⟨p4a, p4b⟩, hp4, hif⟩
    have h1 := (mem_splitsOn _ _ _ _).mp hp1
    have h2 := (mem_splitsOn _ _ _ _).mp hp2
    have h3 := (mem_splitsOn _ _ _ _).mp hp3
    have h4 := (mem_splitsOn _ _ _ _).mp hp4
    by_cases hc : (!p1a.isEmpty && !p2a.isEmpty && !p3a.isEmpty && !p4a.isEmpty &&
        !p4b.isEmpty) = true
    · rw [if_pos hc] at hif
      have hinj := Option.some.inj hif
      simp only [Prod.mk.injEq] at hinj
      obtain ⟨he1, he2, he3, he4, he5⟩ := hinj
      subst he1
      subst he2
      subst he3
      subst he4
      subst he5
      simp only [Bool.and_eq_true] at hc
      refine ⟨?_, by simpa using hc.1.1.1.1, by simpa using hc.1.1.1.2,
        by simpa using hc.1.1.2, by simpa using hc.1.2, by simpa using hc.2⟩
      subst h1
      subst h2
      subst h3
      subst h4
      simp [List.append_assoc]
    · rw [if_neg hc] at hif
      exact Option.noConfusion hif
  · rintro ⟨heq, h1, h2, h3, h4, h5⟩
    refine ⟨(g1, g2 ++ ' ' :: (g3 ++ ' ' :: (g4 ++ arrowChars ++ g5))),
      (mem_splitsOn _ _ _ _).mpr (by simpa [List.append_assoc] using heq),
      (g2, g3 ++ ' ' :: (g4 ++ arrowChars ++ g5)),
      (mem_splitsOn _ _ _ _).mpr (by simp [List.append_assoc]),
      (g3, g4 ++ arrowChars ++ g5),
      (mem_splitsOn _ _ _ _).mpr (by simp [List.append_assoc]),
      (g4, g5),
      (mem_splitsOn _ _ _ _).mpr (by simp [List.append_assoc]), ?_⟩
    rw [if_pos (by simp [h1, h2, h3, h4, h5])]

/-- A split at an occurrence of `c` with `c`-free prefixes is unique. -/
theorem split_first_unique {c : Char} :
    ∀ {a b a2 b2 : List Char}, a ++ c :: b = a2 ++ c :: b2 → c ∉ a → c ∉ a2 →
      a = a2 ∧ b = b2 := by
  intro a
  induction a with
  | nil =>
    intro b a2 b2 heq _ hc2
    cases a2 with
    | nil => exact ⟨rfl, by simpa using heq⟩
    | cons x t =>
      simp only [List.nil_append, List.cons_append] at heq
      obtain ⟨hx, _⟩ := List.cons.inj heq
      exact absurd (hx ▸ List.mem_cons_self x t) hc2
  | cons x t ih =>
    intro b a2 b2 heq hc1 hc2
    cases a2 with
    | nil =>
      simp only [List.cons_append, List.nil_append] at heq
      obtain ⟨hx, _⟩ := List.cons.inj heq
      exact absurd (hx ▸ List.mem_cons_self x t) hc1
    | cons y t2 =>
      simp only [List.cons_append] at heq
      obtain ⟨hxy, htl⟩ := List.cons.inj heq
      have hrec := ih htl (fun hm => hc1 (List.mem_cons_of_mem x hm))
        (fun hm => hc2 (List.mem_cons_of_mem y hm))
      exact ⟨by rw [hxy, hrec.1], hrec.2⟩

/-- Zero occurrences means not a member. -/
theorem count_eq_zero_split {c : Char} {l : List Char} (h : l.count c = 0) : c ∉ l :=
  List.count_eq_zero.mp h

/-- Uniqueness of the dependency-line decomposition when the username and
name are space- and slash-free and the revision, fingerprint and relative
path are space-free: any other decomposition of the same line coincides. -/
theorem lineSplits_unique {g1 g2 g3 g4 g5 h1 h2 h3 h4 h5 : List Char}
    (heq : h1 ++ '/' :: (h2 ++ ' ' :: (h3 ++ ' ' :: (h4 ++ arrowChars ++ h5))) =
           g1 ++ '/' :: (g2 ++ ' ' :: (g3 ++ ' ' :: (g4 ++ arrowChars ++ g5))))
    (hg1s : ' ' ∉ g1) (hg1sl : '/' ∉ g1) (hg2s : ' ' ∉ g2) (hg2sl : '/' ∉ g2)
    (hg3 : ' ' ∉ g3) (hg4 : ' ' ∉ g4) (hg5 : ' ' ∉ g5) :
    h1 = g1 ∧ h2 = g2 ∧ h3 = g3 ∧ h4 = g4 ∧ h5 = g5 := by
  have harrow : arrowChars = ' ' :: ('-' :: '>' :: ' ' :: '_' :: '/' :: []) := by decide
  -- Count spaces on both sides: the g side has exactly 4, so each h part is space-free.
  have hcount : (h1 ++ '/' :: (h2 ++ ' ' :: (h3 ++ ' ' :: (h4 ++ arrowChars ++ h5)))).count ' ' =
      (g1 ++ '/' :: (g2 ++ ' ' :: (g3 ++ ' ' :: (g4 ++ arrowChars ++ g5)))).count ' ' := by
    rw [heq]
  rw [harrow] at hcount
  simp only [List.count_append, List.count_cons, List.count_nil] at hcount
  rw [List.count_eq_zero.mpr hg1s, List.count_eq_zero.mpr hg2s, List.count_eq_zero.mpr hg3,
    List.count_eq_zero.mpr hg4, List.count_eq_zero.mpr hg5] at hcount
  have hz1 : h1.count ' ' = 0 := by omega
  have hz2 : h2.count ' ' = 0 := by omega
  have hz3 : h3.count ' ' = 0 := by omega
  have hz4 : h4.count ' ' = 0 := by omega
  have hm1 : ' ' ∉ h1 := count_eq_zero_split hz1
  have hm2 : ' ' ∉ h2 := count_eq_zero_split hz2
  have hm3 : ' ' ∉ h3 := count_eq_zero_split hz3
  have hm4 : ' ' ∉ h4 := count_eq_zero_split hz4
  -- First space: A ++ ' ' :: B with A = x1 ++ '/' :: x2 space-free.
  have hA : (h1 ++ '/' :: h2) ++ ' ' :: (h3 ++ ' ' :: (h4 ++ arrowChars ++ h5)) =
      (g1 ++ '/' :: g2) ++ ' ' :: (g3 ++ ' ' :: (g4 ++ arrowChars ++ g5)) := by
    simpa [List.append_assoc] using heq
  have hAfree : ' ' ∉ h1 ++ '/' :: h2 := by
    simp [List.mem_append, hm1, hm2]
  have hGfree : ' ' ∉ g1 ++ '/' :: g2 := by
    simp [List.mem_append, hg1s, hg2s]
  obtain ⟨hAeq, hB⟩ := split_first_unique hA hAfree hGfree
  -- Second space: h3 vs g3.
  obtain ⟨h3eq, hC⟩ := split_first_unique hB hm3 hg3
  -- Third space: h4 vs g4, with the arrow's first space as separator.
  have hC2 : h4 ++ ' ' :: ('-' :: '>' :: ' ' :: '_' :: '/' :: h5) =
      g4 ++ ' ' :: ('-' :: '>' :: ' ' :: '_' :: '/' :: g5) := by
    simpa [harrow, List.append_assoc] using hC
  obtain ⟨h4eq, hD⟩ := split_first_unique hC2 hm4 hg4
  have h5eq : h5 = g5 := by
    simpa using hD
  -- The slash inside A: h1, h2 are slash-free by counting on A.
  have hAc : (h1 ++ '/' :: h2).count '/' = (g1 ++ '/' :: g2).count '/' := by rw [hAeq]
  simp only [List.count_append, List.count_cons] at hAc
  rw [List.count_eq_zero.mpr hg1sl, List.count_eq_zero.mpr hg2sl] at hAc
  have hs1 : '/' ∉ h1 := count_eq_zero_split (by omega)
  have hs2 : '/' ∉ h2 := count_eq_zero_split (by omega)
  obtain ⟨h1eq, h2eq⟩ := split_first_unique hAeq hs1 hg1sl
  exact ⟨h1eq, h2eq, h3eq, h4eq, h5eq⟩

/-- The last element of a list whose members all equal `a` is `a`. -/
theorem getLast?_eq_of_mem_all_eq {α : Type} {l : List α} {a : α}
    (hmem : a ∈ l) (hall : ∀ x ∈ l, x = a) : l.getLast? = some a := by
  cases l with
  | nil => exact absurd hmem (List.not_mem_nil a)
  | cons x t =>
    rw [List.getLast?_eq_getLast (x :: t) (by simp)]
    exact congrArg some (hall _ (List.getLast_mem _))

/-- The greedy matcher returns exactly the intended groups on a line built
from well-formed fields (existence from `mem_lineSplits`, uniqueness from
`lineSplits_unique`). -/
theorem regexMatch_serialized {g1 g2 g3 g4 g5 : List Char}
    (h1 : g1 ≠ []) (h2 : g2 ≠ []) (h3 : g3 ≠ []) (h4 : g4 ≠ []) (h5 : g5 ≠ [])
    (hg1s : ' ' ∉ g1) (hg1sl : '/' ∉ g1) (hg2s : ' ' ∉ g2) (hg2sl : '/' ∉ g2)
    (hg3 : ' ' ∉ g3) (hg4 : ' ' ∉ g4) (hg5 : ' ' ∉ g5) :
    regexMatchFlowModLine
      (g1 ++ '/' :: (g2 ++ ' ' :: (g3 ++ ' ' :: (g4 ++ arrowChars ++ g5)))) =
      some (g1, g2, g3, g4, g5) := by
  unfold regexMatchFlowModLine
  apply getLast?_eq_of_mem_all_eq
  · exact mem_lineSplits.mpr ⟨rfl, h1, h2, h3, h4, h5⟩
  · rintro ⟨t1, t2, t3, t4, t5⟩ ht
    obtain ⟨heq, _, _, _, _, _⟩ := mem_lineSplits.mp ht
    obtain ⟨e1, e2, e3, e4, e5⟩ :=
      lineSplits_unique heq hg1s hg1sl hg2s hg2sl hg3 hg4 hg5
    simp only [Prod.mk.injEq]
    exact ⟨e1, e2, e3, e4, e5⟩

/-- `splitChar` never returns the empty list. -/
theorem splitChar_ne_nil {c : Char} : ∀ s : List Char, splitChar c s ≠ [] := by
  intro s
  cases s with
  | nil => simp [splitChar]
  | cons x t =>
    simp only [splitChar]
    split
    · simp
    · rcases splitChar c t with _ | _ <;> simp

/-- `intercalate` on a cons with nonempty tail. -/
theorem intercalate_cons_ne {c : Char} (h : List Char) (t : List (List Char)) (ht : t ≠ []) :
    List.intercalate [c] (h :: t) = h ++ c :: List.intercalate [c] t := by
  cases t with
  | nil => exact absurd rfl ht
  | cons x y => simp [List.intercalate, List.intersperse]

/-- Splitting at an absent character is the singleton. -/
theorem splitChar_ne {c : Char} : ∀ {s : List Char}, c ∉ s → splitChar c s = [s] := by
  intro s
  induction s with
  | nil => intro _; rfl
  | cons x t ih =>
    intro h
    have hx : ¬(x = c) := fun hc => h (hc ▸ List.mem_cons_self x t)
    have ht : c ∉ t := fun hm => h (List.mem_cons_of_mem x hm)
    simp only [splitChar, if_neg hx, ih ht]

/-- Splitting distributes over an occurrence of the separator. -/
theorem splitChar_cat {c : Char} : ∀ (x y : List Char),
    splitChar c (x ++ c :: y) = splitChar c x ++ splitChar c y := by
  intro x y
  induction x with
  | nil => simp [splitChar]
  | cons a t ih =>
    by_cases hac : a = c
    · subst hac
      simp [List.cons_append, splitChar, ih]
    · rcases ht : splitChar c t with _ | ⟨h0, t0⟩
      · exact absurd ht (splitChar_ne_nil t)
      · simp [List.cons_append, splitChar, if_neg hac, ih, ht]

/-- Joining the parts of a split recovers the original list. -/
theorem intercalate_splitChar {c : Char} : ∀ (s : List Char),
    List.intercalate [c] (splitChar c s) = s := by
  intro s
  induction s with
  | nil => simp [splitChar, List.intercalate, List.intersperse]
  | cons x t ih =>
    by_cases hx : x = c
    · subst hx
      simp only [splitChar, if_pos]
      rw [intercalate_cons_ne _ _ (splitChar_ne_nil t), ih]
      simp
    · rcases ht : splitChar c t with _ | ⟨h0, t0⟩
      · exact absurd ht (splitChar_ne_nil t)
      · simp only [splitChar, if_neg hx, ht]
        rw [ht] at ih
        cases t0 with
        | nil =>
          simp only [List.intercalate, List.intersperse, List.flatten] at ih ⊢
          simpa using ih
        | cons y ys =>
          rw [intercalate_cons_ne _ _ (by simp)] at ih
          rw [intercalate_cons_ne _ _ (by simp)]
          rw [List.cons_append, ih]

/-- No part of a split contains the separator. -/
theorem splitChar_parts {c : Char} : ∀ (s : List Char), ∀ p ∈ splitChar c s, c ∉ p := by
  intro s
  induction s with
  | nil =>
    intro p hp
    simp only [splitChar, List.mem_singleton] at hp
    subst hp
    exact List.not_mem_nil c
  | cons x t ih =>
    intro p hp
    by_cases hx : x = c
    · subst hx
      simp only [splitChar, if_pos, List.mem_cons] at hp
      rcases hp with hp | hp
      · subst hp; exact List.not_mem_nil x
      · exact ih p hp
    · rcases ht : splitChar c t with _ | ⟨h0, t0⟩
      · exact absurd ht (splitChar_ne_nil t)
      · simp only [splitChar, if_neg hx, ht, List.mem_cons] at hp
        rcases hp with hp | hp
        · subst hp
          intro hmem
          rcases List.mem_cons.mp hmem with hc | hc
          · exact hx hc.symm
          · exact ih h0 (ht ▸ List.mem_cons_self h0 t0) hc
        · exact ih p (ht ▸ List.mem_cons_of_mem h0 hp)

/-- A two-part split determines the decomposition around the separator. -/
theorem splitChar_pair {c : Char} {s u r : List Char} (h : splitChar c s = [u, r]) :
    s = u ++ c :: r ∧ c ∉ u ∧ c ∉ r := by
  have hi := intercalate_splitChar (c := c) s
  rw [h] at hi
  rw [intercalate_cons_ne _ _ (by simp)] at hi
  refine ⟨?_, ?_, ?_⟩
  · rw [← hi]
    simp [List.intercalate, List.intersperse]
  · exact splitChar_parts s u (h ▸ List.mem_cons_self u [r])
  · exact splitChar_parts s r (h ▸ List.mem_cons_of_mem u (List.mem_cons_self r []))

/-- The common prefix of a list with an extension of itself. -/
theorem commonLead_self_append : ∀ (l m : List (List Char)), commonLead l (l ++ m) = l := by
  intro l m
  induction l with
  | nil => cases m <;> rfl
  | cons a t ih => simp [commonLead, ih]

/-- Path components distribute over a slash-joined concatenation. -/
theorem pathComps_append (a b : List Char) :
    pathComps (a ++ '/' :: b) = pathComps a ++ pathComps b := by
  unfold pathComps
  rw [splitChar_cat, List.filter_append]

/-- Components of a two-component relative path. -/
theorem pathComps_pair {m1 m2 : List Char} (h1 : m1 ≠ []) (h2 : m2 ≠ [])
    (hs1 : '/' ∉ m1) (hs2 : '/' ∉ m2) :
    pathComps (m1 ++ '/' :: m2) = [m1, m2] := by
  rw [pathComps_append]
  unfold pathComps
  rw [splitChar_ne hs1, splitChar_ne hs2]
  have e1 : m1.isEmpty = false := List.isEmpty_eq_false.mpr h1
  have e2 : m2.isEmpty = false := List.isEmpty_eq_false.mpr h2
  simp [List.filter, e1, e2]

/-- `os.path.relpath` of `root/<name>` relative to `root` is `<name>` when
the name's components are nonempty and rebuild it. -/
theorem relpathAbs_concat (root mn : List Char)
    (hne : pathComps mn ≠ [])
    (hrec : List.intercalate ['/'] (pathComps mn) = mn) :
    relpathAbs (root ++ '/' :: mn) root = mn := by
  unfold relpathAbs
  simp only [pathComps_append, commonLead_self_append, List.length_append,
    Nat.sub_self, List.replicate, List.nil_append, List.drop_left]
  rw [if_neg (by simpa [List.isEmpty_iff] using hne)]
  exact hrec

/-- Facts about a nonempty `\w+` string. -/
theorem wordCharsL_props {u : List Char} (h : wordCharsL u = true) :
    u ≠ [] ∧ ' ' ∉ u ∧ '/' ∉ u ∧
    (∀ c, u.head? = some c → c.isWhitespace = false) ∧
    (∀ c, u.getLast? = some c → c.isWhitespace = false) := by
  unfold wordCharsL at h
  obtain ⟨hne, hall⟩ := Bool.and_eq_true_iff.mp h
  refine ⟨by simpa using hne, not_mem_of_all_pos hall (by decide),
    not_mem_of_all_pos hall (by decide), ?_, ?_⟩
  · intro c hc
    exact wordChar_not_ws
      (List.all_eq_true.mp hall c (List.mem_of_mem_head? (Option.mem_def.mpr hc)))
  · intro c hc
    exact wordChar_not_ws (List.all_eq_true.mp hall c (List.mem_of_mem_getLast? hc))

/-- Facts about a whitespace-free string. -/
theorem noWsL_props {u : List Char} (h : noWsL u = true) :
    ' ' ∉ u ∧ (∀ c, u.head? = some c → c.isWhitespace = false) ∧
    (∀ c, u.getLast? = some c → c.isWhitespace = false) := by
  unfold noWsL at h
  refine ⟨not_mem_of_all_pos h (by decide), ?_, ?_⟩
  · intro c hc
    have := List.all_eq_true.mp h c (List.mem_of_mem_head? (Option.mem_def.mpr hc))
    simpa using this
  · intro c hc
    have := List.all_eq_true.mp h c (List.mem_of_mem_getLast? hc)
    simpa using this

/-- A `namespace/name` pair decomposes around its unique slash. -/
theorem slashPairOK_elim {x : List Char} (h : slashPairOK x = true) :
    ∃ u r, x = u ++ '/' :: r ∧ wordCharsL u = true ∧ wordCharsL r = true := by
  unfold slashPairOK at h
  split at h
  next u r heq =>
    obtain ⟨hx, _, _⟩ := splitChar_pair heq
    obtain ⟨hu, hr⟩ := Bool.and_eq_true_iff.mp h
    exact ⟨u, r, hx, hu, hr⟩
  next => exact Bool.noConfusion h

/-- Facts about a well-formed root path. -/
theorem rootPathOK_last {sr : List Char} (h : rootPathOK sr = true) :
    sr.getLast? ≠ some '/' ∧ sr ≠ [] ∧
    (∀ c, sr.head? = some c → c.isWhitespace = false) ∧
    (∀ c, sr.getLast? = some c → c.isWhitespace = false) := by
  unfold rootPathOK at h
  simp only [Bool.and_eq_true, decide_eq_true_eq] at h
  obtain ⟨⟨⟨⟨hne, hh⟩, hl⟩, hsl⟩, _⟩ := h
  have hne2 : sr ≠ [] := by simpa using hne
  refine ⟨?_, hne2, ?_, ?_⟩
  · intro hc
    have : sr.getLastD ' ' = '/' := by
      rw [List.getLastD_eq_getLast?, hc]; rfl
    exact hsl this
  · intro c hc
    have : sr.headD ' ' = c := by rw [List.headD_eq_head?, hc]; rfl
    rw [← this]
    simpa using hh
  · intro c hc
    have : sr.getLastD ' ' = c := by rw [List.getLastD_eq_getLast?, hc]; rfl
    rw [← this]
    simpa using hl

/-- A well-formed sync dir decomposes as root, slash, destination name. -/
theorem syncDirOK_elim {sr sd : List Char} (h : syncDirOK sr sd = true) :
    ∃ m1 m2, sd = sr ++ '/' :: (m1 ++ '/' :: m2) ∧
      wordCharsL m1 = true ∧ wordCharsL m2 = true := by
  unfold syncDirOK at h
  obtain ⟨htake, hpair⟩ := Bool.and_eq_true_iff.mp h
  rw [decide_eq_true_eq] at htake
  obtain ⟨m1, m2, hmn, hm1, hm2⟩ := slashPairOK_elim hpair
  refine ⟨m1, m2, ?_, hm1, hm2⟩
  conv_lhs => rw [← List.take_append_drop (sr.length + 1) sd]
  rw [htake, hmn]
  simp

/-- The serialized dependency line in the grouping the regex proof uses. -/
theorem serializeModLine_canonical {sr : List Char} {s : FlowModuleSpec}
    {u r m1 m2 : List Char}
    (hrepo : s.repo_id = u ++ '/' :: r)
    (hsd : s.sync_dir = sr ++ '/' :: (m1 ++ '/' :: m2))
    (hm1 : wordCharsL m1 = true) (hm2 : wordCharsL m2 = true) :
    serializeModLine sr s =
      u ++ '/' :: (r ++ ' ' :: (s.revision ++ ' ' :: (s.commit_hash ++ arrowChars ++
        (m1 ++ '/' :: m2)))) := by
  obtain ⟨hm1ne, _, hm1sl, _, _⟩ := wordCharsL_props hm1
  obtain ⟨hm2ne, _, hm2sl, _, _⟩ := wordCharsL_props hm2
  have hcomps : pathComps (m1 ++ '/' :: m2) = [m1, m2] :=
    pathComps_pair hm1ne hm2ne hm1sl hm2sl
  have hrel : relpathAbs s.sync_dir sr = m1 ++ '/' :: m2 := by
    rw [hsd]
    apply relpathAbs_concat
    · rw [hcomps]; simp
    · rw [hcomps]
      rw [intercalate_cons_ne _ _ (by simp)]
      simp [List.intercalate, List.intersperse]
  unfold serializeModLine
  rw [hrel, hrepo]
  simp [List.append_assoc]

/-- One serialized dependency line strips to itself, is non-blank, and its
greedy match rebuilds exactly the parsed descriptor `parsedOf`. -/
theorem parse_one_line (env : Env) (sr cr : List Char) (s : FlowModuleSpec)
    (hroot : rootPathOK sr = true)
    (hrepo : slashPairOK s.repo_id = true)
    (hsync : syncDirOK sr s.sync_dir = true)
    (hrev : s.revision ≠ []) (hrevw : noWsL s.revision = true)
    (hhash : s.commit_hash ≠ []) (hhashw : noWsL s.commit_hash = true) :
    trimChars (serializeModLine sr s) = serializeModLine sr s ∧
    (serializeModLine sr s).isEmpty = false ∧
    (match regexMatchFlowModLine (serializeModLine sr s) with
     | none => False
     | some g => specOfGroups env sr cr g = parsedOf env cr s) := by
  obtain ⟨u, r, hrepoEq, hu, hr⟩ := slashPairOK_elim hrepo
  obtain ⟨m1, m2, hsd, hm1, hm2⟩ := syncDirOK_elim hsync
  obtain ⟨hune, hus, husl, huh, _⟩ := wordCharsL_props hu
  obtain ⟨hrne, hrs, hrsl, _, _⟩ := wordCharsL_props hr
  obtain ⟨hm1ne, hm1s, hm1sl, hm1h, _⟩ := wordCharsL_props hm1
  obtain ⟨hm2ne, hm2s, hm2sl, _, hm2l⟩ := wordCharsL_props hm2
  obtain ⟨hrvs, _, _⟩ := noWsL_props hrevw
  obtain ⟨hhs, _, _⟩ := noWsL_props hhashw
  obtain ⟨hsrl, hsrne, _, _⟩ := rootPathOK_last hroot
  have hline := serializeModLine_canonical hrepoEq hsd hm1 hm2
  have hmn_ne : (m1 ++ '/' :: m2) ≠ [] := by simp
  have hmn_s : ' ' ∉ (m1 ++ '/' :: m2) := by
    intro hm
    rcases List.mem_append.mp hm with hm | hm
    · exact hm1s hm
    · rcases List.mem_cons.mp hm with hm | hm
      · exact absurd hm.symm (by decide)
      · exact hm2s hm
  have hmatch : regexMatchFlowModLine (serializeModLine sr s) =
      some (u, r, s.revision, s.commit_hash, m1 ++ '/' :: m2) := by
    rw [hline]
    exact regexMatch_serialized hune hrne hrev hhash hmn_ne
      hus husl hrs hrsl hrvs hhs hmn_s
  have hsplit : serializeModLine sr s =
      (u ++ '/' :: (r ++ ' ' :: (s.revision ++ ' ' :: (s.commit_hash ++ arrowChars ++
        (m1 ++ ['/']))))) ++ m2 := by
    rw [hline]
    simp [List.append_assoc]
  have hpj : pathJoin sr (m1 ++ '/' :: m2) = s.sync_dir := by
    rw [pathJoin_cons _ _ ?hb hsrl, ← hsd]
    case hb =>
      rw [List.head?_append_of_ne_nil _ hm1ne]
      intro hc
      exact hm1sl (List.mem_of_mem_head? (Option.mem_def.mpr (by simpa using hc)))
  refine ⟨?_, ?_, ?_⟩
  · apply trimChars_eq_self
    · intro c hc
      rw [hline, List.head?_append_of_ne_nil _ hune] at hc
      exact huh c hc
    · intro c hc
      rw [hsplit, List.getLast?_append_of_ne_nil _ hm2ne] at hc
      exact hm2l c hc
  · rw [hline]
    simp
  · rw [hmatch]
    unfold specOfGroups parsedOf
    simp only [FlowModuleSpec.mk.injEq]
    refine ⟨hrepoEq.symm, trivial, trivial, ?_, hpj⟩
    rw [hrepoEq, hpj]

/-- The dependency-line loop maps serialization back to parsed descriptors. -/
theorem parseModLines_map (env : Env) (sr cr : List Char)
    (hroot : rootPathOK sr = true) :
    ∀ mods : List FlowModuleSpec,
      (∀ s ∈ mods, slashPairOK s.repo_id = true ∧ syncDirOK sr s.sync_dir = true ∧
        s.revision ≠ [] ∧ noWsL s.revision = true ∧
        s.commit_hash ≠ [] ∧ noWsL s.commit_hash = true) →
      parseModLines env sr cr (mods.map (serializeModLine sr)) =
        .ok (mods.map (parsedOf env cr)) := by
  intro mods
  induction mods with
  | nil => intro _; rfl
  | cons s rest ih =>
    intro hall
    obtain ⟨h1, h2, h3, h4, h5, h6⟩ := hall s (List.mem_cons_self s rest)
    obtain ⟨htrim, hne, hmatchp⟩ := parse_one_line env sr cr s hroot h1 h2 h3 h4 h5 h6
    simp only [List.map_cons, parseModLines, htrim]
    rw [if_neg (by simp [hne])]
    rcases hm : regexMatchFlowModLine (serializeModLine sr s) with _ | g
    · rw [hm] at hmatchp
      exact absurd hmatchp (by simp)
    · rw [hm] at hmatchp
      simp only at hmatchp
      rw [ih (fun x hx => hall x (List.mem_cons_of_mem s hx))]
      simp [hmatchp]

/-- Folding `dictInsert` over key-distinct entries is concatenation. -/
theorem foldl_dictInsert_acc : ∀ (l acc : List FlowModuleSpec),
    (((acc ++ l).map (fun x => x.repo_id)).Nodup) → l.foldl dictInsert acc = acc ++ l := by
  intro l
  induction l with
  | nil => intro acc _; simp
  | cons a t ih =>
    intro acc h
    have hka : a.repo_id ∉ acc.map (fun x => x.repo_id) := by
      rw [List.map_append, List.nodup_append] at h
      intro hmem
      exact h.2.2 hmem (by simp)
    have hnotin : ¬(acc.any (fun x => x.repo_id = a.repo_id) = true) := by
      simp only [List.any_eq_true, not_exists, not_and]
      intro x hx hk
      exact hka (List.mem_map.mpr ⟨x, hx, of_decide_eq_true hk⟩)
    simp only [List.foldl_cons]
    have hstep : dictInsert acc a = acc ++ [a] := by
      unfold dictInsert
      rw [if_neg hnotin]
    rw [hstep, ih (acc ++ [a]) (by simpa [List.append_assoc] using h)]
    simp

/-- A dict built from a key-distinct list is that list. -/
theorem dictOfList_eq_self {l : List FlowModuleSpec}
    (h : (l.map (fun x => x.repo_id)).Nodup) : dictOfList l = l := by
  unfold dictOfList
  rw [foldl_dictInsert_acc l [] (by simpa using h)]
  simp

/-- The `sync_root:`/`cache_root:` lines strip to themselves and parse back
to their payload. -/
theorem parseKeyLine_trim (key r : List Char)
    (hkeyne : key ≠ [])
    (hkeyh : ∀ c, key.head? = some c → c.isWhitespace = false)
    (hr : rootPathOK r = true) :
    trimChars (key ++ r) = key ++ r ∧ parseKeyLine key (key ++ r) = some r := by
  obtain ⟨_, hrne, _, hrl⟩ := rootPathOK_last hr
  constructor
  · apply trimChars_eq_self
    · intro c hc
      rw [List.head?_append_of_ne_nil _ hkeyne] at hc
      exact hkeyh c hc
    · intro c hc
      rw [List.getLast?_append_of_ne_nil _ hrne] at hc
      exact hrl c hc
  · unfold parseKeyLine
    rw [if_pos, List.drop_left]
    simp only [List.take_left, List.length_append, Bool.and_eq_true, decide_eq_true_eq]
    exact ⟨trivial, by have := List.length_pos.mpr hrne; omega⟩

/-- Parsing a written manifest yields the original roots and the parsed
descriptors of the original modules. -/
theorem parse_write_lines (env : Env) (m : FlowModuleSpecSummary)
    (hsr : rootPathOK m.sync_root = true) (hcr : rootPathOK m.cache_root = true)
    (hmods : ∀ s ∈ m.mods, slashPairOK s.repo_id = true ∧
        syncDirOK m.sync_root s.sync_dir = true ∧
        s.revision ≠ [] ∧ noWsL s.revision = true ∧
        s.commit_hash ≠ [] ∧ noWsL s.commit_hash = true) :
    from_flow_mod_lines env (write_flow_mod_summary_lines m) =
      .ok ⟨m.sync_root, m.cache_root, dictOfList (m.mods.map (parsedOf env m.cache_root))⟩ := by
  obtain ⟨hst, hsp⟩ := parseKeyLine_trim syncRootKey m.sync_root (by decide)
    (fun c hc => by cases hc; decide) hsr
  obtain ⟨hct, hcp⟩ := parseKeyLine_trim cacheRootKey m.cache_root (by decide)
    (fun c hc => by cases hc; decide) hcr
  have hshape : write_flow_mod_summary_lines m =
      headerSharpLine :: headerAutoLine :: headerSharpLine ::
      (syncRootKey ++ m.sync_root) :: (cacheRootKey ++ m.cache_root) ::
      m.mods.map (serializeModLine m.sync_root) := by
    simp [write_flow_mod_summary_lines, REVISION_FILE_HEADER_LINES,
      FlowModuleSpecSummary.serialize]
  rw [hshape]
  unfold from_flow_mod_lines
  rw [if_neg (by simp [headerMatches])]
  simp only [List.getD_cons_succ, List.getD_cons_zero, List.drop_succ_cons, List.drop_zero]
  rw [hst, hsp, hct, hcp]
  have hpm := parseModLines_map env m.sync_root m.cache_root hsr m.mods hmods
  simp [hpm]

/-- A `\w+` string is whitespace-free. -/
theorem wordCharsL_noWs {u : List Char} (h : wordCharsL u = true) : noWsL u = true := by
  unfold wordCharsL at h
  unfold noWsL
  obtain ⟨_, hall⟩ := Bool.and_eq_true_iff.mp h
  rw [List.all_eq_true]
  intro c hc
  rw [wordChar_not_ws (List.all_eq_true.mp hall c hc)]
  rfl

/-- The serialization-relevant fields of a well-formed descriptor. -/
theorem specWF_fields {env : Env} {sr cr : List Char} {s : FlowModuleSpec}
    (h : specWF env sr cr s = true) :
    slashPairOK s.repo_id = true ∧ syncDirOK sr s.sync_dir = true ∧
    s.revision ≠ [] ∧ s.commit_hash ≠ [] ∧ noWsL s.commit_hash = true := by
  unfold specWF at h
  simp only [Bool.and_eq_true] at h
  obtain ⟨⟨⟨⟨hpair, hsync⟩, hrevne⟩, _⟩, hbranch⟩ := h
  refine ⟨hpair, hsync, by simpa using hrevne, ?_, ?_⟩
  · by_cases hl : is_local_revision env s.revision
    · rw [if_pos hl] at hbranch
      simp only [Bool.and_eq_true, decide_eq_true_eq] at hbranch
      rw [hbranch.1.1]
      decide
    · rw [if_neg hl] at hbranch
      simp only [Bool.and_eq_true, decide_eq_true_eq] at hbranch
      exact (wordCharsL_props hbranch.1.2).1
  · by_cases hl : is_local_revision env s.revision
    · rw [if_pos hl] at hbranch
      simp only [Bool.and_eq_true, decide_eq_true_eq] at hbranch
      rw [hbranch.1.1]
      decide
    · rw [if_neg hl] at hbranch
      simp only [Bool.and_eq_true, decide_eq_true_eq] at hbranch
      exact wordCharsL_noWs hbranch.1.2

/-- Re-parsing preserves a descriptor satisfying the cache-location law. -/
theorem parsedOf_eq_self {env : Env} {sr cr : List Char} {s : FlowModuleSpec}
    (h : specWF env sr cr s = true) : parsedOf env cr s = s := by
  obtain ⟨rid, rev, ch, cd, sd⟩ := s
  unfold specWF at h
  simp only [Bool.and_eq_true] at h
  obtain ⟨_, hbranch⟩ := h
  unfold parsedOf
  by_cases hl : is_local_revision env rev
  · rw [if_pos hl] at hbranch
    simp only [Bool.and_eq_true, decide_eq_true_eq] at hbranch
    simp [hl, hbranch.1.2]
  · rw [if_neg hl] at hbranch
    simp only [Bool.and_eq_true, decide_eq_true_eq] at hbranch
    rw [Bool.not_eq_true] at hl
    simp [hl, hbranch.2]

/-- C2 (amended): for every manifest satisfying the data-model invariants
whose revisions are additionally whitespace-free, parsing the serialized
manifest file yields the manifest back, field for field, including each
descriptor's cache location. -/
theorem C2_roundtrip_amended (env : Env) (m : FlowModuleSpecSummary)
    (h : summaryWFStrict env m = true) :
    from_flow_mod_file env (some (write_flow_mod_summary_lines m)) = ParseResult.ok m := by
  unfold summaryWFStrict summaryWF at h
  simp only [Bool.and_eq_true] at h
  obtain ⟨⟨⟨⟨hsr, hcr⟩, hnodup⟩, hall⟩, hstrict⟩ := h
  rw [decide_eq_true_eq] at hnodup
  have hallp := List.all_eq_true.mp hall
  have hstrictp := List.all_eq_true.mp hstrict
  have hmods : ∀ s ∈ m.mods, slashPairOK s.repo_id = true ∧
      syncDirOK m.sync_root s.sync_dir = true ∧
      s.revision ≠ [] ∧ noWsL s.revision = true ∧
      s.commit_hash ≠ [] ∧ noWsL s.commit_hash = true := by
    intro s hs
    obtain ⟨h1, h2, h3, h4, h5⟩ := specWF_fields (hallp s hs)
    exact ⟨h1, h2, h3, hstrictp s hs, h4, h5⟩
  unfold from_flow_mod_file
  simp only [parse_write_lines env m hsr hcr hmods]
  have hmap : m.mods.map (parsedOf env m.cache_root) = m.mods := by
    have hcg : m.mods.map (parsedOf env m.cache_root) = m.mods.map id :=
      List.map_congr_left (fun s hs => parsedOf_eq_self (hallp s hs))
    rw [hcg, List.map_id]
  rw [hmap, dictOfList_eq_self hnodup]

/-- C2 (witness): the round trip at a concrete strict manifest with one
remote and one local descriptor. -/
theorem C2_roundtrip_amended_witness :
    from_flow_mod_file envD (some (write_flow_mod_summary_lines mGood)) =
      ParseResult.ok mGood := by
  exact C2_roundtrip_amended envD mGood (by decide)
/-- The dependency-line loop succeeds exactly when every stripped line
before the first blank one matches the grammar. -/
theorem parseModLines_ok_iff (env : Env) (sr cr : List Char) :
    ∀ ls : List (List Char),
      (∃ mods, parseModLines env sr cr ls = .ok mods) ↔
      (ls.takeWhile (fun l => !(trimChars l).isEmpty)).all
        (fun l => (regexMatchFlowModLine (trimChars l)).isSome) = true := by
  intro ls
  induction ls with
  | nil => simp [parseModLines]
  | cons l rest ih =>
    rw [List.takeWhile_cons]
    by_cases ht : (trimChars l).isEmpty
    · simp only [parseModLines, ht, if_true, Bool.not_true]
      simp
    · simp only [parseModLines, ht, if_false, Bool.not_false, if_true]
      rcases hm : regexMatchFlowModLine (trimChars l) with _ | g
      · simp [hm]
      · rcases hp : parseModLines env sr cr rest with e | mods
        · simp only [hm, hp, List.all_cons, Option.isSome_some, Bool.true_and]
          rw [← ih]
          simp [hp]
        · simp only [hm, hp, List.all_cons, Option.isSome_some, Bool.true_and]
          rw [← ih]
          simp [hp]

/-- Parsing an existing manifest file succeeds exactly when the corruption
condition is absent. -/
theorem from_flow_mod_lines_ok_iff (env : Env) (lines : List (List Char)) :
    (∃ S, from_flow_mod_lines env lines = .ok S) ↔ manifestCorruptCond lines = false := by
  unfold from_flow_mod_lines manifestCorruptCond
  by_cases hH : headerMatches lines = true
  · rw [if_neg (by simp [hH])]
    rcases hs : parseKeyLine syncRootKey (trimChars (lines.getD 3 [])) with _ | sr
    · simp [hs, hH]
    · rcases hc : parseKeyLine cacheRootKey (trimChars (lines.getD 4 [])) with _ | cr
      · simp [hs, hc, hH]
      · have hiff := parseModLines_ok_iff env sr cr (lines.drop 5)
        rcases hp : parseModLines env sr cr (lines.drop 5) with e | mods
        · rw [hp] at hiff
          have hLoop : ((lines.drop 5).takeWhile (fun l => !(trimChars l).isEmpty)).all
              (fun l => (regexMatchFlowModLine (trimChars l)).isSome) = false := by
            rw [Bool.eq_false_iff]
            intro habs
            obtain ⟨mods, hmods⟩ := hiff.mpr habs
            exact Except.noConfusion hmods
          simp [hs, hc, hp, hH, hLoop]
        · rw [hp] at hiff
          have hLoop : ((lines.drop 5).takeWhile (fun l => !(trimChars l).isEmpty)).all
              (fun l => (regexMatchFlowModLine (trimChars l)).isSome) = true :=
            hiff.mp ⟨mods, rfl⟩
          simp [hs, hc, hp, hH, hLoop]
  · rw [if_pos (by simp [Bool.eq_false_iff.mpr hH])]
    simp [Bool.eq_false_iff.mpr hH]

/-- C6 (amended): parsing returns absent exactly when the file does not
exist, and fails with ManifestCorrupt exactly when a header line mismatches
after stripping, the sync_root or cache_root line is malformed or missing,
or some non-empty line before the first blank line fails the
dependency-line grammar (lines after the first blank line are ignored). -/
theorem C6_parse_amended :
    (∀ (env : Env) (file : Option (List (List Char))),
       from_flow_mod_file env file = ParseResult.absent ↔ file = none) ∧
    (∀ (env : Env) (lines : List (List Char)),
       from_flow_mod_file env (some lines) = ParseResult.corrupt ↔
       manifestCorruptCond lines = true) := by
  constructor
  · intro env file
    cases file with
    | none => simp [from_flow_mod_file]
    | some lines =>
      simp only [from_flow_mod_file]
      rcases h : from_flow_mod_lines env lines with e | S
      · simp
      · simp
  · intro env lines
    simp only [from_flow_mod_file]
    rcases h : from_flow_mod_lines env lines with e | S
    · simp only
      constructor
      · intro _
        by_contra hc
        rw [Bool.not_eq_true] at hc
        obtain ⟨S, hS⟩ := (from_flow_mod_lines_ok_iff env lines).mpr hc
        rw [h] at hS
        exact Except.noConfusion hS
      · intro _
        trivial
    · simp only
      constructor
      · intro habs
        exact ParseResult.noConfusion habs
      · intro hcond
        have hok := (from_flow_mod_lines_ok_iff env lines).mp ⟨S, h⟩
        rw [hcond] at hok
        exact Bool.noConfusion hok

/-- C6 (witness): a manifest file missing the `cache_root:` line parses as
corrupt, by the amended characterization. -/
theorem C6_parse_amended_witness :
    from_flow_mod_file envNone
      (some (REVISION_FILE_HEADER_LINES ++ [syncRootKey ++ ('/' :: 's' :: [])])) =
      ParseResult.corrupt := by
  exact (C6_parse_amended.2 envNone _).mpr (by decide)

/-- Concatenation preserves the `\w+` shape. -/
theorem wordCharsL_append {u v : List Char} (hu : wordCharsL u = true)
    (hv : wordCharsL v = true) : wordCharsL (u ++ v) = true := by
  unfold wordCharsL at *
  obtain ⟨hne, hall⟩ := Bool.and_eq_true_iff.mp hu
  obtain ⟨_, hall2⟩ := Bool.and_eq_true_iff.mp hv
  simp only [Bool.and_eq_true, List.all_append]
  refine ⟨?_, hall, hall2⟩
  simp only [Bool.not_eq_true', List.isEmpty_eq_false] at hne ⊢
  simp [hne]

/-- Joining two `\w+` parts with a slash yields a well-formed pair. -/
theorem slashPairOK_intro {u r : List Char} (hu : wordCharsL u = true)
    (hr : wordCharsL r = true) : slashPairOK (u ++ '/' :: r) = true := by
  obtain ⟨_, _, husl, _, _⟩ := wordCharsL_props hu
  obtain ⟨_, _, hrsl, _, _⟩ := wordCharsL_props hr
  unfold slashPairOK
  rw [show splitChar '/' (u ++ '/' :: r) = [u, r] by
    rw [splitChar_cat, splitChar_ne husl, splitChar_ne hrsl]; rfl]
  simp [hu, hr]

/-- A destination name appended under the sync root is well-placed. -/
theorem syncDirOK_intro {sr m1 m2 : List Char} (h1 : wordCharsL m1 = true)
    (h2 : wordCharsL m2 = true) :
    syncDirOK sr (sr ++ '/' :: (m1 ++ '/' :: m2)) = true := by
  unfold syncDirOK
  have hsplit : sr ++ '/' :: (m1 ++ '/' :: m2) = (sr ++ ['/']) ++ (m1 ++ '/' :: m2) := by
    simp
  have hlen : sr.length + 1 = (sr ++ ['/']).length := by simp
  simp only [Bool.and_eq_true, decide_eq_true_eq]
  constructor
  · rw [hsplit, hlen, List.take_left]
  · rw [hsplit, hlen, List.drop_left]
    exact slashPairOK_intro h1 h2

/-- A successful `^(\w+)/(\w+)$` match decomposes the url around the slash. -/
theorem matchUserRepo_decomp {url : List Char} {p : List Char × List Char}
    (h : matchUserRepo url = some p) : url = p.1 ++ '/' :: p.2 := by
  unfold matchUserRepo at h
  have hmem : p ∈ (splitsOn ['/'] url).filter (fun q => wordCharsL q.1 && wordCharsL q.2) :=
    List.mem_of_mem_head? (Option.mem_def.mpr h)
  have hsp := (List.mem_filter.mp hmem).1
  have := (mem_splitsOn _ _ _ _).mp (by simpa using hsp)
  simpa using this.symm

/-- Inversion of a successful validation: the url splits into two `\w+`
groups, the destination name is the (possibly `user_`-prefixed) pair, and
the classification branch fixes the resolved revision. -/
theorem validate_ok_facts {env : Env} {d : DepReq} {v : ValidatedDep}
    (h : validate_and_augment_dependency env d = .ok v) :
    ∃ u0 r0 : List Char, matchUserRepo d.url = some (u0, r0) ∧
      d.url = u0 ++ '/' :: r0 ∧ wordCharsL u0 = true ∧ wordCharsL r0 = true ∧
      v.mod_name = (if matchesNumPrefixed u0 then userPrefixChars ++ u0 else u0) ++ '/' :: r0 ∧
      ((v.is_local = false ∧ v.revision = d.revision.getD DEFAULT_REMOTE_REVISION ∧
        env.fileExists (d.revision.getD DEFAULT_REMOTE_REVISION) = false) ∨
       (v.is_local = true ∧ v.revision = env.abspath (d.revision.getD DEFAULT_REMOTE_REVISION) ∧
        env.fileExists (d.revision.getD DEFAULT_REMOTE_REVISION) = true ∧
        env.isDir (d.revision.getD DEFAULT_REMOTE_REVISION) = true)) := by
  unfold validate_and_augment_dependency at h
  rcases hm : matchUserRepo d.url with _ | ⟨u0, r0⟩
  · rw [hm] at h; exact Except.noConfusion h
  · rw [hm] at h
    simp only at h
    obtain ⟨hu0, hr0⟩ := matchUserRepo_wordChars hm
    have hurl := matchUserRepo_decomp hm
    by_cases hnum : matchesNumPrefixed r0 = true
    · rw [if_pos hnum] at h
      exact Except.noConfusion h
    · rw [if_neg hnum] at h
      by_cases hex : env.fileExists (d.revision.getD DEFAULT_REMOTE_REVISION) = true
      · rw [if_neg (by simp [hex])] at h
        by_cases hdir : env.isDir (d.revision.getD DEFAULT_REMOTE_REVISION) = true
        · rw [if_neg (by simp [hdir])] at h
          by_cases hsub : containsSub DEFAULT_FLOW_MODULE_FOLDER
              (d.revision.getD DEFAULT_REMOTE_REVISION) = true
          · rw [if_pos hsub] at h
            exact Except.noConfusion h
          · rw [if_neg hsub] at h
            obtain rfl := Except.ok.inj h
            exact ⟨u0, r0, rfl, hurl, hu0, hr0, rfl, Or.inr ⟨rfl, rfl, hex, hdir⟩⟩
        · rw [if_pos (by simpa using hdir)] at h
          exact Except.noConfusion h
      · rw [if_pos (by simpa using hex)] at h
        by_cases hbad : (d.revision.getD DEFAULT_REMOTE_REVISION).any
            (fun c => !wordChar c) = true
        · rw [if_pos hbad] at h
          exact Except.noConfusion h
        · rw [if_neg hbad] at h
          obtain rfl := Except.ok.inj h
          refine ⟨u0, r0, rfl, hurl, hu0, hr0, rfl, Or.inl ⟨rfl, rfl, by simpa using hex⟩⟩

/-- Inversion of a loop iteration whose previous descriptor is absent: the
dependency validates, the branch selected by its classification fetches,
the requirements file is present, and the fetched descriptor is inserted. -/
theorem processDep_fresh {env : Env} {sr cr caller : List Char}
    {S : FlowModuleSpecSummary} {d : DepReq} {S2 : FlowModuleSpecSummary} {eff : SyncEffects}
    (hprev : S.get_mod d.url = none)
    (h : processDep env sr cr caller false S d = .ok (S2, eff)) :
    ∃ v spec, validate_and_augment_dependency env d = .ok v ∧
      spec = (if v.is_local then
          fetch_local env d.url v.revision (env.abspath (pathJoin sr v.mod_name))
        else
          fetch_remote env d.url v.revision (env.abspath (pathJoin sr v.mod_name)) cr) ∧
      env.hasRequirementsFile spec.sync_dir = true ∧
      S2 = S.add_mod spec ∧ eff = { zeroEff with fetches := 1 } := by
  unfold processDep at h
  rcases hv : validate_and_augment_dependency env d with e | v
  · rw [hv] at h; exact Except.noConfusion h
  · rw [hv] at h
    simp only at h
    rw [hprev] at h
    by_cases hl : v.is_local = true
    · rw [if_pos hl] at h
      unfold sync_local_dep at h
      simp only at h
      by_cases hdir : env.isDir v.revision = true
      · rw [if_neg (by simp [hdir])] at h
        simp only at h
        by_cases hreq : env.hasRequirementsFile
            (fetch_local env d.url v.revision (env.abspath (pathJoin sr v.mod_name))).sync_dir
            = true
        · rw [if_pos hreq] at h
          have hinj := Except.ok.inj h
          simp only [Prod.mk.injEq] at hinj
          refine ⟨v, _, rfl, (if_pos hl).symm, hreq, hinj.1.symm, hinj.2.symm⟩
        · rw [if_neg hreq] at h
          exact Except.noConfusion h
      · rw [if_pos (by simpa using hdir)] at h
        exact Except.noConfusion h
    · rw [if_neg hl] at h
      unfold sync_remote_dep at h
      simp only at h
      by_cases hreq : env.hasRequirementsFile
          (fetch_remote env d.url v.revision (env.abspath (pathJoin sr v.mod_name)) cr).sync_dir
          = true
      · rw [if_pos hreq] at h
        have hinj := Except.ok.inj h
        simp only [Prod.mk.injEq] at hinj
        refine ⟨v, _, rfl, (if_neg hl).symm, hreq, hinj.1.symm, hinj.2.symm⟩
      · rw [if_neg hreq] at h
        exact Except.noConfusion h

/-- Lookup misses when the key is absent from the summary. -/
theorem get_mod_none {l : List FlowModuleSpec} {sr cr u : List Char}
    (h : u ∉ l.map (fun x => x.repo_id)) :
    (FlowModuleSpecSummary.mk sr cr l).get_mod u = none := by
  unfold FlowModuleSpecSummary.get_mod
  simp only
  rw [List.find?_eq_none]
  intro x hx
  simp only [decide_eq_true_eq, Bool.not_eq_true]
  intro he
  exact h (List.mem_map.mpr ⟨x, hx, he⟩)

/-- Inserting a fresh key appends. -/
theorem dictInsert_notin {l : List FlowModuleSpec} {s : FlowModuleSpec}
    (h : s.repo_id ∉ l.map (fun x => x.repo_id)) : dictInsert l s = l ++ [s] := by
  have hnotin : ¬(l.any (fun x => x.repo_id = s.repo_id) = true) := by
    simp only [List.any_eq_true, not_exists, not_and]
    intro x hx hk
    exact h (List.mem_map.mpr ⟨x, hx, of_decide_eq_true hk⟩)
  unfold dictInsert
  rw [if_neg hnotin]

/-- A successful loop over dependencies none of whose urls occur among the
accumulated keys appends one freshly fetched descriptor per dependency. -/
theorem syncLoop_fresh (env : Env) (sr cr caller : List Char) :
    ∀ (deps : List DepReq) (pre : List FlowModuleSpec) (S1 : FlowModuleSpecSummary)
      (recs : List SyncEffects),
      (pre.map (fun s => s.repo_id) ++ deps.map (fun d => d.url)).Nodup →
      syncLoop env sr cr caller false ⟨sr, cr, pre⟩ deps = (.ok S1, recs) →
      ∃ specs, FreshSync env sr cr deps specs ∧
        specs.map (fun s => s.repo_id) = deps.map (fun d => d.url) ∧
        S1 = ⟨sr, cr, pre ++ specs⟩ := by
  intro deps
  induction deps with
  | nil =>
    intro pre S1 recs hnd hl
    simp only [syncLoop, Prod.mk.injEq] at hl
    obtain rfl := (Except.ok.inj hl.1).symm
    exact ⟨[], .nil, rfl, by simp⟩
  | cons d rest ih =>
    intro pre S1 recs hnd hl
    simp only [syncLoop] at hl
    split at hl
    · simp only [Prod.mk.injEq] at hl
      exact Except.noConfusion hl.1
    next S2 eff heq =>
      have hdu : d.url ∉ pre.map (fun s => s.repo_id) := by
        rw [List.nodup_append] at hnd
        intro hmem
        exact hnd.2.2 hmem (by simp)
      obtain ⟨v, spec, hv, hspec, hreq, hS2, heff⟩ := processDep_fresh (get_mod_none hdu) heq
      have hkey : spec.repo_id = d.url := by
        rw [hspec]
        by_cases hl2 : v.is_local = true
        · rw [if_pos hl2]; rfl
        · rw [if_neg hl2]; rfl
      have hS2' : S2 = ⟨sr, cr, pre ++ [spec]⟩ := by
        rw [hS2]
        unfold FlowModuleSpecSummary.add_mod
        simp only
        rw [dictInsert_notin (by rw [hkey]; exact hdu)]
      rw [hS2'] at hl
      simp only [Prod.mk.injEq] at hl
      have hnd2 : ((pre ++ [spec]).map (fun s => s.repo_id) ++
          rest.map (fun d => d.url)).Nodup := by
        rw [List.map_append]
        have : (pre.map (fun s => s.repo_id) ++ [spec].map (fun s => s.repo_id)) ++
            rest.map (fun d => d.url) =
            pre.map (fun s => s.repo_id) ++
              (spec.repo_id :: rest.map (fun d => d.url)) := by
          simp
        rw [this, hkey]
        exact hnd
      obtain ⟨specs, hfs, hkeys, hS1⟩ := ih (pre ++ [spec]) S1 _ hnd2
        (by rw [Prod.ext_iff]; exact ⟨hl.1, rfl⟩)
      refine ⟨spec :: specs, .cons hv hspec hreq hfs, by simp [hkey, hkeys], ?_⟩
      rw [hS1]
      simp

/-- Every descriptor of a fresh synchronization satisfies the serialization
well-formedness conditions (identity `abspath`, content-addressed cache
snapshot names, a well-formed sync root, and benign requests assumed). -/
theorem freshSpecs_wf {env : Env} {sr cr : List Char}
    (habs : EnvAbsId env) (hwf : EnvHashWF env cr) (hsr : rootPathOK sr = true) :
    ∀ {deps : List DepReq} {specs : List FlowModuleSpec},
      FreshSync env sr cr deps specs →
      (∀ d ∈ deps, DepOK d) →
      ∀ s ∈ specs, slashPairOK s.repo_id = true ∧ syncDirOK sr s.sync_dir = true ∧
        s.revision ≠ [] ∧ noWsL s.revision = true ∧
        s.commit_hash ≠ [] ∧ noWsL s.commit_hash = true := by
  intro deps specs hfs
  induction hfs with
  | nil => intro _ s hs; cases hs
  | @cons d v spec ds specs2 hv hspec hreq hrest ih =>
    intro hdeps s hs
    rcases List.mem_cons.mp hs with rfl | hs2
    · obtain ⟨u0, r0, hm, hurl, hu0, hr0, hmod, hbr⟩ := validate_ok_facts hv
      obtain ⟨how, hrw, hrne⟩ := hdeps d (List.mem_cons_self d ds)
      have hun2 : wordCharsL (if matchesNumPrefixed u0 then userPrefixChars ++ u0 else u0)
          = true := by
        by_cases hn : matchesNumPrefixed u0 = true
        · rw [if_pos hn]; exact wordCharsL_append (by decide) hu0
        · rw [if_neg hn]; exact hu0
      obtain ⟨hun2ne, _, hun2sl, _, _⟩ := wordCharsL_props hun2
      have hkey : s.repo_id = d.url := by
        rw [hspec]
        by_cases hl2 : v.is_local = true
        · rw [if_pos hl2]; rfl
        · rw [if_neg hl2]; rfl
      have hrev : s.revision = v.revision := by
        rw [hspec]
        by_cases hl2 : v.is_local = true
        · rw [if_pos hl2]; rfl
        · rw [if_neg hl2]; rfl
      have hsd : s.sync_dir = pathJoin sr v.mod_name := by
        rw [hspec]
        by_cases hl2 : v.is_local = true
        · rw [if_pos hl2]; simp [fetch_local, habs _]
        · rw [if_neg hl2]; simp [fetch_remote, habs _]
      have hmh : v.mod_name.head? ≠ some '/' := by
        rw [hmod, List.head?_append_of_ne_nil _ hun2ne]
        intro hc
        exact hun2sl (List.mem_of_mem_head? (Option.mem_def.mpr hc))
      have hjoin : pathJoin sr v.mod_name = sr ++ '/' :: v.mod_name :=
        pathJoin_cons sr v.mod_name hmh (rootPathOK_last hsr).1
      have hrevv : v.revision = d.revision.getD DEFAULT_REMOTE_REVISION := by
        rcases hbr with ⟨_, hr1, _⟩ | ⟨_, hr1, _, _⟩
        · exact hr1
        · rw [hr1, habs _]
      refine ⟨?_, ?_, ?_, ?_, ?_, ?_⟩
      · rw [hkey, hurl]; exact slashPairOK_intro hu0 hr0
      · rw [hsd, hjoin, hmod]; exact syncDirOK_intro hun2 hr0
      · rw [hrev, hrevv]; exact hrne
      · rw [hrev, hrevv]; exact hrw
      · rw [hspec]
        by_cases hl2 : v.is_local = true
        · rw [if_pos hl2]; simp [fetch_local, NO_COMMIT_HASH]
        · rw [if_neg hl2]
          have := hwf d.url v.revision
          obtain ⟨hne, _, _, _, _⟩ := wordCharsL_props this
          simpa [fetch_remote, extract_commit_hash_from_cache_mod_dir] using hne
      · rw [hspec]
        by_cases hl2 : v.is_local = true
        · rw [if_pos hl2]; simp [fetch_local]; decide
        · rw [if_neg hl2]
          have := wordCharsL_noWs (hwf d.url v.revision)
          simpa [fetch_remote, extract_commit_hash_from_cache_mod_dir] using this
    · exact ih (fun d2 hd2 => hdeps d2 (List.mem_cons_of_mem d hd2)) s hs2

/-- In a key-distinct list, the lookup of a member's key returns it. -/
theorem find?_key_self {l : List FlowModuleSpec} {x : FlowModuleSpec}
    (hnd : (l.map (fun y => y.repo_id)).Nodup) (hmem : x ∈ l) :
    l.find? (fun y => y.repo_id = x.repo_id) = some x := by
  induction l with
  | nil => cases hmem
  | cons a t ih =>
    rw [List.map_cons, List.nodup_cons] at hnd
    rcases List.mem_cons.mp hmem with rfl | hm
    · rw [List.find?_cons_of_pos _ (by simp)]
    · have hne : decide (a.repo_id = x.repo_id) = false := by
        simp only [decide_eq_false_iff_not]
        intro he
        exact hnd.1 (he ▸ List.mem_map.mpr ⟨x, hm, rfl⟩)
      rw [List.find?_cons, hne]
      exact ih hnd.2 hm

/-- In a key-distinct list, re-inserting a member changes nothing. -/
theorem dictInsert_self {l : List FlowModuleSpec} {x : FlowModuleSpec}
    (hnd : (l.map (fun y => y.repo_id)).Nodup) (hmem : x ∈ l) :
    dictInsert l x = l := by
  unfold dictInsert
  rw [if_pos (List.any_eq_true.mpr ⟨x, hmem, by simp⟩)]
  have hpt : ∀ y ∈ l, (if y.repo_id = x.repo_id then x else y) = y := by
    intro y hy
    by_cases he : y.repo_id = x.repo_id
    · rw [if_pos he]
      exact (List.inj_on_of_nodup_map hnd hy hmem he).symm
    · rw [if_neg he]
  rw [List.map_congr_left hpt]
  simp

/-- Freshly fetched descriptors carry their request's url as origin id. -/
theorem freshSync_keys {env : Env} {sr cr : List Char} :
    ∀ {deps : List DepReq} {specs : List FlowModuleSpec},
      FreshSync env sr cr deps specs →
      List.Forall₂ (fun (d : DepReq) (s : FlowModuleSpec) => s.repo_id = d.url) deps specs := by
  intro deps specs hfs
  induction hfs with
  | nil => exact .nil
  | @cons d v spec ds specs2 hv hspec hreq hrest ih =>
    refine .cons ?_ ih
    rw [hspec]
    by_cases hl2 : v.is_local = true
    · rw [if_pos hl2]; rfl
    · rw [if_neg hl2]; rfl

/-- Strengthen a pairwise relation using membership on the right. -/
theorem forall2_lift {α β : Type} {Q R : α → β → Prop} :
    ∀ {l1 : List α} {l2 : List β}, List.Forall₂ Q l1 l2 →
      (∀ a b, Q a b → b ∈ l2 → R a b) → List.Forall₂ R l1 l2 := by
  intro l1 l2 hf
  induction hf with
  | nil => intro _; exact .nil
  | cons hq hrest ih =>
    intro h
    refine .cons (h _ _ hq (List.mem_cons_self _ _)) ?_
    exact ih (fun a b hq2 hb => h a b hq2 (List.mem_cons_of_mem _ hb))

/-- Re-syncing an unchanged local dependency against its own previous
descriptor keeps the descriptor and performs no effectful call. -/
theorem sync_local_skip {env : Env} {sr cr caller : List Char} {d : DepReq} {v : ValidatedDep}
    {spec : FlowModuleSpec} {ow : Bool}
    (habs : EnvAbsId env)
    (hv : validate_and_augment_dependency env d = .ok v)
    (hl : v.is_local = true)
    (hspec : spec = fetch_local env d.url v.revision (env.abspath (pathJoin sr v.mod_name)))
    (how : ow = false) :
    sync_local_dep env (some (parsedOf env cr spec)) d.url v.mod_name v.revision caller sr ow =
      (.ok (parsedOf env cr spec), zeroEff) := by
  obtain ⟨u0, r0, hm, hurl, hu0, hr0, hmod, hbr⟩ := validate_ok_facts hv
  have hdir : env.isDir v.revision = true := by
    rcases hbr with ⟨hf, _, _⟩ | ⟨_, hr1, _, hd1⟩
    · rw [hl] at hf; exact Bool.noConfusion hf
    · rw [hr1, habs _]; exact hd1
  have hsd : (parsedOf env cr spec).sync_dir = env.abspath (pathJoin sr v.mod_name) := by
    show spec.sync_dir = _
    rw [hspec]
    show env.abspath (env.abspath (pathJoin sr v.mod_name)) = _
    rw [habs _]
  have hrev : (parsedOf env cr spec).revision = v.revision := by
    show spec.revision = _
    rw [hspec]
    rfl
  have hkey : (parsedOf env cr spec).repo_id = d.url := by
    show spec.repo_id = _
    rw [hspec]
    rfl
  unfold sync_local_dep
  simp only
  rw [if_neg (show ¬((!env.isDir v.revision) = true) from by simp [hdir])]
  rw [if_neg (show ¬(env.abspath (pathJoin sr v.mod_name) ≠ (parsedOf env cr spec).sync_dir)
    from by rw [hsd]; simp)]
  rw [if_neg (show ¬(ow = true) from by simp [how])]
  rw [if_neg (show ¬((parsedOf env cr spec).mod_id ≠
      FlowModuleSpec.build_mod_id d.url v.revision) from by
    unfold FlowModuleSpec.mod_id
    rw [hkey, hrev]
    simp)]

/-- Re-syncing a remote dependency whose upstream fingerprint is unchanged
against its own previous descriptor keeps the descriptor; the remote lookup
and the modification check still run. -/
theorem sync_remote_skip {env : Env} {sr cr caller : List Char} {d : DepReq} {v : ValidatedDep}
    {spec : FlowModuleSpec} {ow : Bool}
    (habs : EnvAbsId env) (hhash : EnvHashStable env cr)
    (hspec : spec = fetch_remote env d.url v.revision (env.abspath (pathJoin sr v.mod_name)) cr)
    (how : ow = false) :
    sync_remote_dep env (some (parsedOf env cr spec)) d.url v.mod_name v.revision caller sr cr
      ow = (.ok (parsedOf env cr spec),
        { zeroEff with remoteLookups := 1, modifiedChecks := 1 }) := by
  have hsd : (parsedOf env cr spec).sync_dir = env.abspath (pathJoin sr v.mod_name) := by
    show spec.sync_dir = _
    rw [hspec]
    show env.abspath (env.abspath (pathJoin sr v.mod_name)) = _
    rw [habs _]
  have hrev : (parsedOf env cr spec).revision = v.revision := by
    show spec.revision = _
    rw [hspec]
    rfl
  have hkey : (parsedOf env cr spec).repo_id = d.url := by
    show spec.repo_id = _
    rw [hspec]
    rfl
  have hch : env.remoteHash d.url v.revision = (parsedOf env cr spec).commit_hash := by
    rw [hhash d.url v.revision]
    show _ = spec.commit_hash
    rw [hspec]
    rfl
  unfold sync_remote_dep
  simp only
  rw [if_neg (show ¬(env.abspath (pathJoin sr v.mod_name) ≠ (parsedOf env cr spec).sync_dir)
    from by rw [hsd]; simp)]
  rw [if_neg (show ¬(ow = true) from by simp [how])]
  rw [if_neg (show ¬((parsedOf env cr spec).mod_id ≠
      FlowModuleSpec.build_mod_id d.url v.revision) from by
    unfold FlowModuleSpec.mod_id
    rw [hkey, hrev]
    simp)]
  rw [if_pos (show (!decide (env.remoteHash d.url v.revision ≠
      (parsedOf env cr spec).commit_hash)) = true from by simp [hch])]

/-- A loop iteration on a dependency whose previous descriptor is its own
parsed fetch result leaves the summary unchanged and fetches nothing. -/
theorem processDep_skip {env : Env} {sr cr caller : List Char} {d : DepReq}
    {v : ValidatedDep} {spec : FlowModuleSpec} {T : FlowModuleSpecSummary}
    (habs : EnvAbsId env) (hhash : EnvHashStable env cr)
    (hv : validate_and_augment_dependency env d = .ok v)
    (hspec : spec = (if v.is_local then
        fetch_local env d.url v.revision (env.abspath (pathJoin sr v.mod_name))
      else
        fetch_remote env d.url v.revision (env.abspath (pathJoin sr v.mod_name)) cr))
    (hreq : env.hasRequirementsFile spec.sync_dir = true)
    (hdep : DepOK d)
    (hget : T.get_mod d.url = some (parsedOf env cr spec))
    (hadd : T.add_mod (parsedOf env cr spec) = T) :
    processDep env sr cr caller false T d =
      .ok (T, if v.is_local then zeroEff
              else { zeroEff with remoteLookups := 1, modifiedChecks := 1 }) := by
  unfold processDep
  rw [hv]
  simp only
  rw [hget]
  by_cases hl : v.is_local = true
  · rw [if_pos hl, if_pos hl]
    rw [sync_local_skip habs hv hl (by rw [hspec, if_pos hl]) (by simp [hdep.1])]
    simp only
    rw [if_pos (show env.hasRequirementsFile (parsedOf env cr spec).sync_dir = true from hreq)]
    rw [hadd]
  · rw [if_neg hl, if_neg hl]
    rw [sync_remote_skip habs hhash (by rw [hspec, if_neg hl]) (by simp [hdep.1])]
    simp only
    rw [if_pos (show env.hasRequirementsFile (parsedOf env cr spec).sync_dir = true from hreq)]
    rw [hadd]

/-- On a summary that already holds the parsed descriptor of every
dependency, the loop succeeds without changing the summary and without a
single fetch. -/
theorem syncLoop_skip {env : Env} {sr cr caller : List Char}
    (habs : EnvAbsId env) (hhash : EnvHashStable env cr) :
    ∀ {deps : List DepReq} {specs : List FlowModuleSpec},
      FreshSync env sr cr deps specs →
      (∀ d ∈ deps, DepOK d) →
      ∀ T : FlowModuleSpecSummary,
        List.Forall₂ (fun (d : DepReq) (s : FlowModuleSpec) =>
          T.get_mod d.url = some (parsedOf env cr s) ∧
          T.add_mod (parsedOf env cr s) = T) deps specs →
        ∃ recs, syncLoop env sr cr caller false T deps = (.ok T, recs) ∧
          ∀ e ∈ recs, e.fetches = 0 := by
  intro deps specs hfs
  induction hfs with
  | nil =>
    intro _ T _
    exact ⟨[], rfl, by simp⟩
  | @cons d v spec ds specs2 hv hspec hreq hrest ih =>
    intro hdeps T hf2
    rcases hf2 with _ | ⟨hpair, hf2t⟩
    obtain ⟨hget, hadd⟩ := hpair
    have hstep := @processDep_skip env sr cr caller d v spec T habs hhash hv hspec hreq
      (hdeps d (List.mem_cons_self d ds)) hget hadd
    obtain ⟨recs, hrec, hz⟩ := ih (fun d2 hd2 => hdeps d2 (List.mem_cons_of_mem d hd2)) T hf2t
    refine ⟨(if v.is_local then zeroEff
        else { zeroEff with remoteLookups := 1, modifiedChecks := 1 }) :: recs, ?_, ?_⟩
    · simp only [syncLoop, hstep, hrec]
    · intro e he
      rcases List.mem_cons.mp he with rfl | he2
      · by_cases hl : v.is_local = true
        · rw [if_pos hl]
          rfl
        · rw [if_neg hl]
          rfl
      · exact hz e he2

/-- The freshly created empty manifest parses back to the empty summary. -/
theorem parse_empty_manifest (env : Env) (sr cr : List Char)
    (hsr : rootPathOK sr = true) (hcr : rootPathOK cr = true) :
    from_flow_mod_lines env (emptyManifestLines sr cr) = .ok ⟨sr, cr, []⟩ := by
  have h := parse_write_lines env ⟨sr, cr, []⟩ hsr hcr (by intro s hs; cases hs)
  have he : write_flow_mod_summary_lines (⟨sr, cr, []⟩ : FlowModuleSpecSummary) =
      emptyManifestLines sr cr := by
    simp [write_flow_mod_summary_lines, FlowModuleSpecSummary.serialize, emptyManifestLines]
  rw [he] at h
  simpa [dictOfList] using h

/-- The serialized dependency line ignores the cache location, the only
field re-parsing changes. -/
theorem serializeModLine_parsedOf (env : Env) (sr cr : List Char) (s : FlowModuleSpec) :
    serializeModLine sr (parsedOf env cr s) = serializeModLine sr s := rfl

/-- C7 (amended): calling the driver twice with the same dependency list
(pairwise-distinct origin ids, no overwrite flags, nonempty whitespace-free
resolved revisions), well-formed root paths, identity `abspath`, unchanged
upstream fingerprints, no local modification, and no pre-existing manifest,
performs zero fetches in the second call and leaves the manifest file
byte-identical, provided the first call succeeds. -/
theorem C7_idempotence_amended (env : Env) (deps : List DepReq)
    (base cr caller : List Char) (S1 : FlowModuleSpecSummary)
    (habs : EnvAbsId env) (hmod : EnvUnmodified env)
    (hhash : EnvHashStable env cr) (hwf : EnvHashWF env cr)
    (hdeps : ∀ d ∈ deps, DepOK d)
    (hnodup : (deps.map (fun d => d.url)).Nodup)
    (hsr : rootPathOK (pathJoin base DEFAULT_FLOW_MODULE_FOLDER) = true)
    (hcr : rootPathOK cr = true)
    (hok : (_sync_dependencies env deps false base cr caller none).result = .ok S1) :
    totalFetches (_sync_dependencies env deps false base cr caller
      (_sync_dependencies env deps false base cr caller none).file) = 0 ∧
    (_sync_dependencies env deps false base cr caller
      (_sync_dependencies env deps false base cr caller none).file).file =
      (_sync_dependencies env deps false base cr caller none).file := by
  by_cases hg : (env.fileExists (env.abspath (pathJoin base DEFAULT_FLOW_MODULE_FOLDER)) &&
      !env.isDir (env.abspath (pathJoin base DEFAULT_FLOW_MODULE_FOLDER))) = true
  · simp only [_sync_dependencies, if_pos hg] at hok
    exact Except.noConfusion hok
  · have hsr2 : rootPathOK (env.abspath (pathJoin base DEFAULT_FLOW_MODULE_FOLDER)) = true := by
      rw [habs _]; exact hsr
    have hE1 : from_flow_mod_lines env (ensureManifest none
        (env.abspath (pathJoin base DEFAULT_FLOW_MODULE_FOLDER)) cr) =
        .ok ⟨env.abspath (pathJoin base DEFAULT_FLOW_MODULE_FOLDER), cr, []⟩ :=
      parse_empty_manifest env _ cr hsr2 hcr
    rcases hL : syncLoop env (env.abspath (pathJoin base DEFAULT_FLOW_MODULE_FOLDER)) cr
        caller false ⟨env.abspath (pathJoin base DEFAULT_FLOW_MODULE_FOLDER), cr, []⟩ deps
      with ⟨res, recs1⟩
    cases res with
    | error e =>
      simp only [_sync_dependencies, if_neg hg, hE1, hL] at hok
      exact Except.noConfusion hok
    | ok S1x =>
      obtain ⟨specs, hfs, hkeys, hS1eq⟩ := syncLoop_fresh env
        (env.abspath (pathJoin base DEFAULT_FLOW_MODULE_FOLDER)) cr caller deps [] S1x recs1
        (by simpa using hnodup) hL
      rw [List.nil_append] at hS1eq
      subst hS1eq
      have hf2keys := freshSync_keys hfs
      have hndspecs : (specs.map (fun s => s.repo_id)).Nodup := by
        rw [hkeys]; exact hnodup
      have hkeysmap : ((specs.map (parsedOf env cr)).map (fun s => s.repo_id)) =
          specs.map (fun s => s.repo_id) := by
        rw [List.map_map]
        exact List.map_congr_left (fun s _ => rfl)
      have hndmap : ((specs.map (parsedOf env cr)).map (fun s => s.repo_id)).Nodup := by
        rw [hkeysmap]; exact hndspecs
      have hwfall := freshSpecs_wf habs hwf hsr2 hfs hdeps
      have hfile1 : (_sync_dependencies env deps false base cr caller none).file =
          some (write_flow_mod_summary_lines
            ⟨env.abspath (pathJoin base DEFAULT_FLOW_MODULE_FOLDER), cr, specs⟩) := by
        simp only [_sync_dependencies, if_neg hg, hE1, hL]
      have hp : from_flow_mod_lines env (write_flow_mod_summary_lines
          ⟨env.abspath (pathJoin base DEFAULT_FLOW_MODULE_FOLDER), cr, specs⟩) =
          .ok ⟨env.abspath (pathJoin base DEFAULT_FLOW_MODULE_FOLDER), cr,
            dictOfList (specs.map (parsedOf env cr))⟩ :=
        parse_write_lines env
          ⟨env.abspath (pathJoin base DEFAULT_FLOW_MODULE_FOLDER), cr, specs⟩ hsr2 hcr
          (fun s hs => hwfall s hs)
      have hE2 : from_flow_mod_lines env (ensureManifest
          (some (write_flow_mod_summary_lines
            ⟨env.abspath (pathJoin base DEFAULT_FLOW_MODULE_FOLDER), cr, specs⟩))
          (env.abspath (pathJoin base DEFAULT_FLOW_MODULE_FOLDER)) cr) =
          .ok ⟨env.abspath (pathJoin base DEFAULT_FLOW_MODULE_FOLDER), cr,
            specs.map (parsedOf env cr)⟩ := by
        show from_flow_mod_lines env (write_flow_mod_summary_lines
          ⟨env.abspath (pathJoin base DEFAULT_FLOW_MODULE_FOLDER), cr, specs⟩) = _
        rw [hp, dictOfList_eq_self hndmap]
      have hptw : ∀ s ∈ specs,
          (⟨env.abspath (pathJoin base DEFAULT_FLOW_MODULE_FOLDER), cr,
              specs.map (parsedOf env cr)⟩ : FlowModuleSpecSummary).get_mod s.repo_id =
            some (parsedOf env cr s) ∧
          (⟨env.abspath (pathJoin base DEFAULT_FLOW_MODULE_FOLDER), cr,
              specs.map (parsedOf env cr)⟩ : FlowModuleSpecSummary).add_mod
            (parsedOf env cr s) =
            ⟨env.abspath (pathJoin base DEFAULT_FLOW_MODULE_FOLDER), cr,
              specs.map (parsedOf env cr)⟩ := by
        intro s hs
        have hmem : parsedOf env cr s ∈ specs.map (parsedOf env cr) :=
          List.mem_map_of_mem _ hs
        constructor
        · exact find?_key_self hndmap hmem
        · show FlowModuleSpecSummary.mk _ _
              (dictInsert (specs.map (parsedOf env cr)) (parsedOf env cr s)) = _
          rw [dictInsert_self hndmap hmem]
      have hf2 : List.Forall₂ (fun (d : DepReq) (s : FlowModuleSpec) =>
          (⟨env.abspath (pathJoin base DEFAULT_FLOW_MODULE_FOLDER), cr,
              specs.map (parsedOf env cr)⟩ : FlowModuleSpecSummary).get_mod d.url =
            some (parsedOf env cr s) ∧
          (⟨env.abspath (pathJoin base DEFAULT_FLOW_MODULE_FOLDER), cr,
              specs.map (parsedOf env cr)⟩ : FlowModuleSpecSummary).add_mod
            (parsedOf env cr s) =
            ⟨env.abspath (pathJoin base DEFAULT_FLOW_MODULE_FOLDER), cr,
              specs.map (parsedOf env cr)⟩) deps specs :=
        forall2_lift hf2keys (fun d s hq hmem => by
          rw [← hq]
          exact hptw s hmem)
      obtain ⟨recs2, hL2, hz⟩ := @syncLoop_skip env
        (env.abspath (pathJoin base DEFAULT_FLOW_MODULE_FOLDER)) cr caller habs hhash
        deps specs hfs hdeps
        ⟨env.abspath (pathJoin base DEFAULT_FLOW_MODULE_FOLDER), cr,
          specs.map (parsedOf env cr)⟩ hf2
      have hmapser : (specs.map (parsedOf env cr)).map
          (serializeModLine (env.abspath (pathJoin base DEFAULT_FLOW_MODULE_FOLDER))) =
          specs.map (serializeModLine
            (env.abspath (pathJoin base DEFAULT_FLOW_MODULE_FOLDER))) := by
        rw [List.map_map]
        exact List.map_congr_left (fun s _ =>
          serializeModLine_parsedOf env (env.abspath (pathJoin base DEFAULT_FLOW_MODULE_FOLDER))
            cr s)
      have hwr : write_flow_mod_summary_lines
          ⟨env.abspath (pathJoin base DEFAULT_FLOW_MODULE_FOLDER), cr,
            specs.map (parsedOf env cr)⟩ =
          write_flow_mod_summary_lines
            ⟨env.abspath (pathJoin base DEFAULT_FLOW_MODULE_FOLDER), cr, specs⟩ := by
        simp [write_flow_mod_summary_lines, FlowModuleSpecSummary.serialize, hmapser]
      rw [hfile1]
      have hrun2 : _sync_dependencies env deps false base cr caller
          (some (write_flow_mod_summary_lines
            ⟨env.abspath (pathJoin base DEFAULT_FLOW_MODULE_FOLDER), cr, specs⟩)) =
          { result := .ok ⟨env.abspath (pathJoin base DEFAULT_FLOW_MODULE_FOLDER), cr,
              specs.map (parsedOf env cr)⟩,
            file := some (write_flow_mod_summary_lines
              ⟨env.abspath (pathJoin base DEFAULT_FLOW_MODULE_FOLDER), cr,
                specs.map (parsedOf env cr)⟩),
            records := recs2 } := by
        simp only [_sync_dependencies, if_neg hg, hE2, hL2]
      rw [hrun2]
      constructor
      · show (recs2.map (fun e => e.fetches)).sum = 0
        exact List.sum_eq_zero (fun x hx => by
          obtain ⟨e, he, rfl⟩ := List.mem_map.mp hx
          exact hz e he)
      · show some (write_flow_mod_summary_lines
            ⟨env.abspath (pathJoin base DEFAULT_FLOW_MODULE_FOLDER), cr,
              specs.map (parsedOf env cr)⟩) = _
        rw [hwr]

/-- C7 (witness): the amended statement at concrete inputs (one remote and
one local dependency, identity environment, stable fingerprints). -/
theorem C7_idempotence_amended_witness :
    totalFetches (_sync_dependencies envD depsW false ('/' :: 'p' :: []) ('/' :: 'c' :: [])
      ('t' :: []) (_sync_dependencies envD depsW false ('/' :: 'p' :: []) ('/' :: 'c' :: [])
        ('t' :: []) none).file) = 0 ∧
    (_sync_dependencies envD depsW false ('/' :: 'p' :: []) ('/' :: 'c' :: [])
      ('t' :: []) (_sync_dependencies envD depsW false ('/' :: 'p' :: []) ('/' :: 'c' :: [])
        ('t' :: []) none).file).file =
      (_sync_dependencies envD depsW false ('/' :: 'p' :: []) ('/' :: 'c' :: [])
        ('t' :: []) none).file :=
  C7_idempotence_amended envD depsW ('/' :: 'p' :: []) ('/' :: 'c' :: []) ('t' :: []) summaryW
    (fun _ => rfl) (fun _ _ => rfl) (fun _ _ => rfl) (fun _ _ => rfl)
    (by
      intro d hd
      rcases List.mem_cons.mp hd with rfl | hd2
      · exact ⟨rfl, by decide, by decide⟩
      · rcases List.mem_cons.mp hd2 with rfl | hd3
        · exact ⟨rfl, by decide, by decide⟩
        · cases hd3)
    (by decide) (by decide) (by decide) (by decide)
